import Mathlib

/-!
Verification of the idempotent registration / manifest-output subsystem of
mcp-to-pi-tools (src/lib/registration.js, src/lib/output.js, src/lib/config.js
and the tool-management module).

Strings manipulated by the registration engine are modelled as `List Char`
(called `Str` below), so that the index arithmetic of the JavaScript code
(`indexOf`, `slice`, regex match offsets) is represented exactly.
-/

abbrev Str := List Char

/-- The full ECMAScript whitespace class: `\s` in regular expressions and the
characters `String.prototype.trim` removes.  It is the union of WhiteSpace
(TAB, VT, FF, SP, NBSP U+00A0, ZWNBSP U+FEFF and the Unicode
space-separator category: U+1680, U+2000–U+200A, U+202F, U+205F, U+3000)
and LineTerminator (LF, CR, LS U+2028, PS U+2029). -/
def isWs (c : Char) : Bool :=
  c = ' ' || c = '\t' || c = '\n' || c = '\r' || c = '\x0b' || c = '\x0c' ||
  c.val = 0xA0 || c.val = 0x1680 ||
  (0x2000 ≤ c.val && c.val ≤ 0x200A) ||
  c.val = 0x2028 || c.val = 0x2029 || c.val = 0x202F || c.val = 0x205F ||
  c.val = 0x3000 || c.val = 0xFEFF

/-- The ECMAScript LineTerminator class: the characters that the regex `.`
does not match and that multiline `^` / `$` anchor around: LF, CR,
LS U+2028 and PS U+2029. -/
def isLineTerm (c : Char) : Bool :=
  c = '\n' || c = '\r' || c.val = 0x2028 || c.val = 0x2029

/-- `s.trimStart()`-like helper: drop leading whitespace. -/
def trimLeft (s : Str) : Str := s.dropWhile isWs

/-- `s.trimEnd()`-like helper: drop trailing whitespace. -/
def trimRight (s : Str) : Str := (s.reverse.dropWhile isWs).reverse

/-- JavaScript `String.prototype.trim`: drop whitespace at both ends. -/
def trim (s : Str) : Str := trimLeft (trimRight s)

/-- `content.slice(a, b)` of JavaScript (for `0 ≤ a ≤ b`). -/
def strSlice (s : Str) (a b : Nat) : Str := (s.take b).drop a

/-- Helper for `collapseNl`: `n` is the number of pending newline characters
read so far in the current run.  Each maximal run of `≥ 3` newlines is
replaced by exactly two, shorter runs are kept: this is
`.replace(/\n{3,}/g, "\n\n")` from `unregisterEntry` (registration.js). -/
def collapseAux : Nat → Str → Str
  | n, [] => List.replicate (min n 2) '\n'
  | n, c :: cs =>
    if c = '\n' then collapseAux (n + 1) cs
    else List.replicate (min n 2) '\n' ++ c :: collapseAux 0 cs

/-- `.replace(/\n{3,}/g, "\n\n")`: collapse every run of three or more
newlines down to exactly two. -/
def collapseNl (s : Str) : Str := collapseAux 0 s

/-- `fileContent.indexOf(pat)` (registration.js line 73): index of the first
occurrence of `pat` as a contiguous substring, `none` for `-1`. -/
def indexOfSub : Str → Str → Option Nat
  | [], pat => if pat.isPrefixOf [] then some 0 else none
  | c :: rest, pat =>
    if pat.isPrefixOf (c :: rest) then some 0
    else (indexOfSub rest pat).map (· + 1)

/-- Does the regex `/\n###\s+/` (registration.js line 77) match at the very
start of `s`?  It needs a newline, three hashes and at least one whitespace
character. -/
def isNextHeadingAt : Str → Bool
  | '\n' :: '#' :: '#' :: '#' :: c :: _ => isWs c
  | _ => false

/-- `fileContent.slice(afterHeading).match(/\n###\s+/)` — the index of the
first match of the next-heading pattern, `none` when there is no match. -/
def nextHeadingIdx : Str → Option Nat
  | [] => none
  | c :: rest =>
    if isNextHeadingAt (c :: rest) then some 0
    else (nextHeadingIdx rest).map (· + 1)

/-- The `while (endIndex > startIndex && fileContent[endIndex - 1] === "\n")
endIndex--;` loop of `findSectionByHeading` (registration.js lines 86-88). -/
def trimNlBack (doc : Str) (start : Nat) : Nat → Nat
  | 0 => 0
  | e + 1 =>
    if start < e + 1 && doc.getD e ' ' == '\n' then trimNlBack doc start e
    else e + 1

/-- The located span of a section: `{ start, end, content }`
(registration.js lines 90-94).  `end` is a reserved word in Lean, so the
field is called `endIdx`. -/
structure SectionSpan where
  start : Nat
  endIdx : Nat
  content : Str
deriving DecidableEq, Repr

/-- `findSectionByHeading(fileContent, heading)` (registration.js lines 72-95):
find the first exact occurrence of `heading`, extend to the next
`/\n###\s+/` match (or end of document), then trim trailing newlines
backwards, never moving before the heading start. -/
def findSectionByHeading (fileContent : Str) (heading : Str) : Option SectionSpan :=
  match indexOfSub fileContent heading with
  | none => none
  | some startIndex =>
    let afterHeading := startIndex + heading.length
    let rawEnd :=
      match nextHeadingIdx (fileContent.drop afterHeading) with
      | some m => afterHeading + m
      | none => fileContent.length
    let endIndex := trimNlBack fileContent startIndex rawEnd
    some ⟨startIndex, endIndex, strSlice fileContent startIndex endIndex⟩

/-! ## extractHeading

`extractHeading(content)` is `content.match(/^###\s+.+$/m)` (registration.js
lines 60-63).  The multiline regex tries every line start in order; at a
candidate start the greedy semantics are: after `###`, `\s+` takes the longest
whitespace run that still lets `.+$` match (`.` matches every character except
a newline, `$` holds before a newline or at the end of input). -/

/-- Largest `k` with `1 ≤ k ≤ n` such that `w[k]` is not a line terminator —
the backtracking of `\s+` when the whole run `w` is followed by end of input
(`.` must consume at least one non-LineTerminator character from the run
itself). -/
def backtrackK (w : Str) : Nat → Option Nat
  | 0 => none
  | k + 1 =>
    if ! isLineTerm (w.getD (k + 1) ' ') then some (k + 1) else backtrackK w k

/-- Try to match `###\s+.+$` at the start of `s` (a line start), returning
the matched text. -/
def headingMatchAt (s : Str) : Option Str :=
  match s with
  | '#' :: '#' :: '#' :: rest =>
    let w := rest.takeWhile isWs
    let afterW := rest.drop w.length
    if w.length = 0 then none
    else if afterW.length ≠ 0 then
      some ('#' :: '#' :: '#' :: (w ++ afterW.takeWhile (fun c => ! isLineTerm c)))
    else
      match backtrackK w (w.length - 1) with
      | some k =>
        some ('#' :: '#' :: '#'
          :: (w.take k ++ (w.drop k).takeWhile (fun c => ! isLineTerm c)))
      | none => none
  | _ => none

/-- Scan the line starts of `s` in order for the first `###\s+.+$` match.
Each recursive step consumes at least one character (the newline ending the
current line), so fuel `s.length + 1` is always enough; fuel keeps the
recursion structural. -/
def extractHeadingFrom : Nat → Str → Option Str
  | 0, _ => none
  | fuel + 1, s =>
    match headingMatchAt s with
    | some h => some h
    | none =>
      match s.dropWhile (fun c => ! isLineTerm c) with
      | [] => none
      | _ :: rest => extractHeadingFrom fuel rest

/-- `extractHeading(content)` (registration.js lines 60-63): the first line
matching `/^###\s+.+$/m`, or `none`. -/
def extractHeading (content : Str) : Option Str :=
  extractHeadingFrom (content.length + 1) content

/-! ## registerEntry / unregisterEntry (pure core)

`registerEntry` (registration.js lines 120-177) reads the target file,
branches on heading / located section, and performs at most one full-file
write.  The filesystem read/write is made explicit: the function below takes
the current file content (`none` when the file does not exist, mirroring
`existsSync`) and returns the action, the resulting content, whether a write
was performed, and whether `updateRegistry` was invoked (it is invoked on
`updated`, and on `created` when the entry has a heading). -/

inductive RegAction | created | updated | unchanged
deriving DecidableEq, Repr

structure RegOut where
  action : RegAction
  file : Str
  wrote : Bool
  record : Bool
deriving DecidableEq, Repr

/-- The separator logic of registration.js lines 155-164. -/
def sepFor (existingContent : Str) : Str :=
  if existingContent.length > 0 then
    if (['\n', '\n'] : Str).isSuffixOf existingContent then []
    else if (['\n'] : Str).isSuffixOf existingContent then ['\n']
    else ['\n', '\n']
  else []

/-- Pure core of `registerEntry(targetPath, entryContent, name)`
(registration.js lines 120-177), with the file content passed explicitly. -/
def registerEntry (existing : Option Str) (entryContent : Str) : RegOut :=
  let heading := extractHeading entryContent
  let trimmedContent := trim entryContent
  let existingContent := existing.getD []
  let appended :=
    existingContent ++ sepFor existingContent ++ trimmedContent ++ ['\n']
  match heading with
  | some h =>
    match findSectionByHeading existingContent h with
    | some sec =>
      if trim sec.content = trimmedContent then
        ⟨.unchanged, existingContent, false, false⟩
      else
        ⟨.updated,
          strSlice existingContent 0 sec.start ++ trimmedContent
            ++ existingContent.drop sec.endIdx,
          true, true⟩
    | none => ⟨.created, appended, true, true⟩
  | none => ⟨.created, appended, true, false⟩

inductive UnregAction | removed | notFound
deriving DecidableEq, Repr

/-- Pure core of `unregisterEntry(targetPath, heading)` (registration.js
lines 297-313): remove the located span, collapse runs of three or more
newlines to two, trim, and end with exactly one newline. -/
def unregisterEntry (file : Option Str) (heading : Str) : UnregAction × Option Str :=
  match file with
  | none => (.notFound, none)
  | some content =>
    match findSectionByHeading content heading with
    | none => (.notFound, some content)
    | some sec =>
      (.removed,
        some (trim (collapseNl (content.take sec.start ++ content.drop sec.endIdx))
          ++ ['\n']))

/-- The whitespace normalisation that `unregisterEntry` applies to a whole
document: collapse newline runs of length `≥ 3` to two, trim, and end with
exactly one newline.  Two documents are "equal modulo whitespace-run
collapsing" when `normalizeDoc` maps them to the same string. -/
def normalizeDoc (d : Str) : Str := trim (collapseNl d) ++ ['\n']

/-! ## Paths, configuration and the path-resolution policy

Paths are ordinary strings; to reason about prefixes the JavaScript string
methods used by the code are modelled over `String.data`. -/

/-- JavaScript `s.startsWith(pre)`. -/
def strStartsWith (s pre : String) : Bool := pre.data.isPrefixOf s.data

/-- JavaScript `s.slice(n)` for a nonnegative `n`. -/
def strDrop (s : String) (n : Nat) : String := ⟨s.data.drop n⟩

/-- JavaScript `s.endsWith(suf)`. -/
def strEndsWith (s suf : String) : Bool := suf.data.isSuffixOf s.data

/-- Split a path into `/`-separated segments. -/
def splitSegs : Str → List Str
  | [] => [[]]
  | c :: rest =>
    if c = '/' then [] :: splitSegs rest
    else
      match splitSegs rest with
      | s :: ss => (c :: s) :: ss
      | [] => [[c]]

/-- Normalisation pass of Node's `path.posix` for an absolute path: empty and
`.` segments are dropped, `..` pops the previous segment (and is dropped at
the root). -/
def normSegs (segs : List Str) : List Str :=
  segs.foldl
    (fun acc seg =>
      if seg = [] ∨ seg = ['.'] then acc
      else if seg = ['.', '.'] then acc.dropLast
      else acc ++ [seg])
    []

/-- Node `path.join(a, b)` for an absolute first argument: concatenate with a
separator and normalise.  Only the absolute case is used by the code
(`join(homedir(), …)`, `join(AGENT_TOOLS_DIR, …)`, `join(cwd, …)`). -/
def joinPath (a b : String) : String :=
  ⟨'/' :: (List.intercalate ['/'] (normSegs (splitSegs (a.data ++ '/' :: b.data))))⟩

/-- `resolvePath(path)` (registration.js lines 22-27 and, identically,
output.js lines 18-23): expand a leading `~/` to the home directory,
leave every other path unchanged. -/
def resolvePath (home : String) (path : String) : String :=
  if strStartsWith path "~/" then joinPath home (strDrop path 2)
  else path

/-- `PRESETS` (config.js lines 19-24), in object insertion order. -/
def PRESETS : List (String × String) :=
  [("pi", "~/.pi/agent/AGENTS.md"),
   ("claude", "~/.claude/CLAUDE.md"),
   ("gemini", "~/.gemini/AGENTS.md"),
   ("codex", "~/.codex/AGENTS.md")]

/-- `PRESET_PRIORITY` (config.js lines 26-31). -/
def PRESET_PRIORITY : List String :=
  ["~/.pi/agent/AGENTS.md",
   "~/.claude/CLAUDE.md",
   "~/.codex/AGENTS.md",
   "~/.gemini/AGENTS.md"]

/-- `PRESET_PATHS = new Set(Object.values(PRESETS))` (registration.js line 13). -/
def PRESET_PATHS : List String := PRESETS.map (·.2)

/-- `LOCAL_FILE_PRIORITY` (registration.js line 12). -/
def LOCAL_FILE_PRIORITY : List String := ["CLAUDE.md", "AGENTS.md"]

/-- The loop of `detectLocalFile(cwd)` (registration.js lines 103-111) over a
priority list.  `ex` is the `existsSync` predicate of the ambient
filesystem. -/
def detectLocalFrom (ex : String → Bool) (cwd : String) : List String → String
  | [] => joinPath cwd "AGENTS.md"
  | f :: rest =>
    if ex (joinPath cwd f) then joinPath cwd f else detectLocalFrom ex cwd rest

/-- `detectLocalFile(cwd)` (registration.js lines 103-111). -/
def detectLocalFile (ex : String → Bool) (cwd : String) : String :=
  detectLocalFrom ex cwd LOCAL_FILE_PRIORITY

/-- `Set.add` on an insertion-ordered list: JavaScript `Set` semantics
(deduplicating, insertion order preserved), as consumed by
`Array.from(paths)`. -/
def addUnique (l : List String) (s : String) : List String :=
  if s ∈ l then l else l ++ [s]

/-- The effective-config fields consulted by `resolveAllPaths`
(registration.js lines 258-286).  `local` is a Lean keyword, hence
`localFlag`. -/
structure EffectiveConfig where
  registerPaths : List String
  allPresets : Bool
  localFlag : Bool

/-- The default-branch loop of `resolveAllPaths`: scan `PRESET_PRIORITY` and
keep only the first preset whose resolved location exists (`break` after the
first hit, registration.js lines 272-277). -/
def firstExistingPreset (ex : String → Bool) (home : String) : List String → List String
  | [] => []
  | p :: rest =>
    if ex (resolvePath home p) then [p] else firstExistingPreset ex home rest

/-- The all-presets branch loop of `resolveAllPaths` (registration.js lines
266-270): every preset whose resolved location exists, in priority order. -/
def allExistingPresets (ex : String → Bool) (home : String) (l : List String) : List String :=
  (l.filter (fun p => ex (resolvePath home p))).foldl addUnique []

/-- `resolveAllPaths(effectiveConfig)` (registration.js lines 258-286).
`ex` models `existsSync`, `home` the home directory, `cwd` the current
working directory. -/
def resolveAllPaths (ex : String → Bool) (home cwd : String)
    (cfg : EffectiveConfig) : List String :=
  let base :=
    if cfg.registerPaths.length > 0 then cfg.registerPaths.foldl addUnique []
    else if cfg.allPresets then allExistingPresets ex home PRESET_PRIORITY
    else firstExistingPreset ex home PRESET_PRIORITY
  if cfg.localFlag then addUnique base (detectLocalFile ex cwd) else base

/-- `deriveHeading(name)` from the tool-management module: title-case the
hyphen-separated name and wrap it as `### <Name> Tools`. -/
def capitalizeWord (w : String) : String :=
  match w.data with
  | [] => ""
  | c :: rest => ⟨c.toUpper :: rest⟩

def deriveHeading (name : String) : String :=
  "### " ++ String.intercalate " " ((name.splitOn "-").map capitalizeWord) ++ " Tools"

def getToolHeading (name : String) : String := deriveHeading name

/-! ## Manifest-aware output writer (src/lib/output.js)

A managed output directory is modelled as an association list from filename
to file.  A file's content is either plain text or the serialised manifest;
modelling JSON serialisation as this injection means `readManifest` parses a
manifest file exactly when it was written as one, and any other content is a
parse failure.  The executable bit tracks `chmodSync(filePath, 0o755)`. -/

def MANIFEST_FILE : String := ".mcp2cli-manifest.json"

/-- The manifest shape (output.js lines 56-63). -/
structure Manifest where
  version : Nat
  package : String
  generatedAt : String
  files : List String
deriving DecidableEq, Repr

inductive FileData
  | text (s : String)
  | manifestData (m : Manifest)
deriving DecidableEq, Repr

structure DirFile where
  data : FileData
  exec : Bool
deriving DecidableEq, Repr

/-- The contents of an existing output directory, in directory order. -/
abbrev DirState := List (String × DirFile)

def fsLookup : DirState → String → Option DirFile
  | [], _ => none
  | (k, v) :: rest, n => if k = n then some v else fsLookup rest n

/-- `writeFileSync`: replace the content of an existing entry (keeping its
mode) or append a new entry with the executable bit clear. -/
def fsWrite : DirState → String → FileData → DirState
  | [], n, v => [(n, ⟨v, false⟩)]
  | (k, fd) :: rest, n, v =>
    if k = n then (k, ⟨v, fd.exec⟩) :: rest else (k, fd) :: fsWrite rest n v

/-- `chmodSync(filePath, 0o755)`: set the executable bit. -/
def fsChmod : DirState → String → Bool → DirState
  | [], _, _ => []
  | (k, fd) :: rest, n, x =>
    if k = n then (k, ⟨fd.data, x⟩) :: rest else (k, fd) :: fsChmod rest n x

/-- `unlinkSync`: remove an entry (a no-op when absent, matching the
`existsSync` guard around every `unlinkSync` in `writeOutput`). -/
def fsErase : DirState → String → DirState
  | [], _ => []
  | (k, fd) :: rest, n =>
    if k = n then fsErase rest n else (k, fd) :: fsErase rest n

/-- `readManifest(resolvedDir)` (output.js lines 39-48): `none` when the
manifest file is absent or fails to parse. -/
def readManifest (d : DirState) : Option Manifest :=
  match fsLookup d MANIFEST_FILE with
  | some ⟨.manifestData m, _⟩ => some m
  | _ => none

/-- `createManifest(packageName, files)` (output.js lines 56-63), as the
structured value that gets serialised. -/
def createManifest (packageName : String) (files : List String) (now : String) : Manifest :=
  ⟨1, packageName, now, files.filter (fun f => ¬ f = MANIFEST_FILE)⟩

/-- `getUserFiles(resolvedDir, manifest)` (output.js lines 71-78). -/
def getUserFiles (d : DirState) (manifest : Manifest) : List String :=
  (d.map (·.1)).filter (fun f => ¬ (f ∈ manifest.files ∨ f = MANIFEST_FILE))

/-- Does the filename get `chmod 0o755` (output.js line 154)? -/
def isScript (n : String) : Bool := strEndsWith n ".js" || strEndsWith n ".sh"

/-- The write loop of `writeOutput` (output.js lines 144-161): write every
file, marking script extensions executable. -/
def writeFiles (d : DirState) (files : List (String × String)) : DirState :=
  files.foldl
    (fun acc fc =>
      let acc1 := fsWrite acc fc.1 (.text fc.2)
      if isScript fc.1 then fsChmod acc1 fc.1 true else acc1)
    d

inductive WriteErr | dirExists
deriving DecidableEq, Repr

/-- `writeOutput(outputDir, files, options)` (output.js lines 90-165) with the
filesystem explicit: `st` is the current output directory (`none` = absent),
`files` the filename→content map in object insertion order, `now` the
generation timestamp.  Returns the new directory state, `st` unchanged on
dry-run, or the directory-exists refusal. -/
def writeOutput (dryRun force : Bool) (st : Option DirState)
    (files : List (String × String)) (packageName now : String) :
    Except WriteErr (Option DirState) :=
  if dryRun then .ok st
  else
    let base : Except WriteErr DirState :=
      match st with
      | some d =>
        if ¬ force then .error .dirExists
        else
          match readManifest d with
          | some m =>
            .ok (fsErase (m.files.foldl fsErase d) MANIFEST_FILE)
          | none => .ok []
      | none => .ok []
    match base with
    | .error e => .error e
    | .ok d1 =>
      .ok (some (fsWrite (writeFiles d1 files) MANIFEST_FILE
        (.manifestData (createManifest packageName (files.map (·.1)) now))))

/-! ## Registry store (registration.js lines 33-53, 185-211, 315-321)

The backing file `~/.mcp2cli/registry.json` is modelled as
`Option (StoredJson Registry)`: `none` = file absent, `some .corrupt` = file
present but `JSON.parse` fails, `some (.parsed r)` = parses to `r`.  A
registration record may still be in one of the legacy shapes, hence the
optional `customPaths` / `paths` / `heading` fields. -/

inductive StoredJson (α : Type)
  | corrupt
  | parsed (a : α)
deriving DecidableEq, Repr

structure RegRecord where
  customPaths : Option (List String)
  paths : Option (List String)
  heading : Option String
  lastUpdated : String
deriving DecidableEq, Repr

structure Registry where
  registrations : List (String × RegRecord)
deriving DecidableEq, Repr

def regLookup : List (String × RegRecord) → String → Option RegRecord
  | [], _ => none
  | (k, v) :: rest, n => if k = n then some v else regLookup rest n

/-- JavaScript object update `registry.registrations[name] = e`: replace in
place, or append a new key. -/
def regInsert : List (String × RegRecord) → String → RegRecord → List (String × RegRecord)
  | [], n, e => [(n, e)]
  | (k, v) :: rest, n, e =>
    if k = n then (k, e) :: rest else (k, v) :: regInsert rest n e

def regDelete : List (String × RegRecord) → String → List (String × RegRecord)
  | [], _ => []
  | (k, v) :: rest, n =>
    if k = n then regDelete rest n else (k, v) :: regDelete rest n

/-- `loadRegistry()` (registration.js lines 33-42): missing file or parse
failure yields the empty registry; never raises. -/
def loadRegistry : Option (StoredJson Registry) → Registry
  | none => ⟨[]⟩
  | some .corrupt => ⟨[]⟩
  | some (.parsed r) => r

/-- The legacy-shape migration inside `updateRegistry` (registration.js lines
200-204): if `customPaths` is missing, move `paths` (or `[]`) into it and
drop the legacy fields. -/
def migrateRecord (e : RegRecord) : RegRecord :=
  match e.customPaths with
  | some _ => e
  | none => ⟨some (e.paths.getD []), none, none, e.lastUpdated⟩

/-- `updateRegistry(name, path)` (registration.js lines 185-211) acting on a
loaded registry value; `now` is `new Date().toISOString()`.  A path that is
a member of `PRESET_PATHS` (the unresolved `~/…` preset strings) is not
recorded. -/
def updateRegistry (name path now : String) (reg : Registry) : Registry :=
  if path ∈ PRESET_PATHS then reg
  else
    let e0 := (regLookup reg.registrations name).getD ⟨some [], none, none, now⟩
    let e1 := migrateRecord e0
    let cps := e1.customPaths.getD []
    let cps2 := if path ∈ cps then cps else cps ++ [path]
    ⟨regInsert reg.registrations name ⟨some cps2, e1.paths, e1.heading, now⟩⟩

/-- `removeFromRegistry(name)` (registration.js lines 315-321). -/
def removeFromRegistry (name : String) (reg : Registry) : Registry :=
  match regLookup reg.registrations name with
  | some _ => ⟨regDelete reg.registrations name⟩
  | none => reg

/-- `registerEntry` together with its `updateRegistry` side effect
(registration.js lines 149-151 and 166-171): the registry is updated with
the original `targetPath` argument on `updated`, and on `created` when the
entry has a heading. -/
def registerEntryWithRegistry (targetPath : String) (fileContent : Option Str)
    (entryContent : Str) (name now : String) (reg : Registry) : RegOut × Registry :=
  let r := registerEntry fileContent entryContent
  (r, if r.record then updateRegistry name targetPath now reg else reg)

/-! ## Tool removal (removeTool, tool-management module)

`removeTool` touches several parts of the system, modelled together:
markdown files (path → content), the set of existing tool directories, and
the registry backing store.  The symlink manager lives in `symlink.js`,
which is an external collaborator of the core (spec §1, §2); its effect on
the state is abstracted as the `removeSymlinks` parameter. -/

structure SysFs where
  files : List (String × Str)
  dirs : List String
  registryStore : Option (StoredJson Registry)
deriving Repr

def sysLookup : List (String × Str) → String → Option Str
  | [], _ => none
  | (k, v) :: rest, n => if k = n then some v else sysLookup rest n

def sysWrite : List (String × Str) → String → Str → List (String × Str)
  | [], n, v => [(n, v)]
  | (k, c) :: rest, n, v =>
    if k = n then (k, v) :: rest else (k, c) :: sysWrite rest n v

/-- `unregisterEntry(targetPath, heading)` acting on the whole filesystem:
resolve the path, read the file (absent file = `not_found`), apply the pure
core, write back on removal. -/
def unregisterEntryFs (home : String) (fs : SysFs) (targetPath : String)
    (heading : Str) : UnregAction × SysFs :=
  let resolved := resolvePath home targetPath
  match sysLookup fs.files resolved with
  | none => (.notFound, fs)
  | some content =>
    match unregisterEntry (some content) heading with
    | (.removed, some newContent) =>
      (.removed, { fs with files := sysWrite fs.files resolved newContent })
    | _ => (.notFound, fs)

/-- `join(homedir(), "agent-tools")`. -/
def agentToolsDir (home : String) : String := joinPath home "agent-tools"

/-- `rmSync(toolPath, { recursive: true })`: drop the directory and
everything under it. -/
def rmRecursive (fs : SysFs) (p : String) : SysFs :=
  { fs with
    dirs := fs.dirs.filter (fun d => ¬ (d = p ∨ strStartsWith d (p ++ "/"))),
    files := fs.files.filter (fun kv => ¬ strStartsWith kv.1 (p ++ "/")) }

/-- `removeFromRegistry(name)` (registration.js lines 315-321) acting on the
backing store (`saveRegistry` writes the parsed value back). -/
def removeFromRegistryFs (fs : SysFs) (name : String) : SysFs :=
  let reg := loadRegistry fs.registryStore
  match regLookup reg.registrations name with
  | some _ =>
    { fs with registryStore := some (.parsed ⟨regDelete reg.registrations name⟩) }
  | none => fs

/-- The result shape of `removeTool` (`{ success, error? , dryRun? }`). -/
structure RemoveResult where
  success : Bool
  error : Option String
  dryRun : Bool
deriving DecidableEq, Repr

def removeNotFound (name : String) : RemoveResult :=
  ⟨false, some ("Tool \"" ++ name ++ "\" not found in ~/agent-tools/"), false⟩

/-- The customPaths fallback `regEntry?.customPaths || regEntry?.paths || []`
(JavaScript `||` on possibly-missing fields). -/
def recordCustomPaths (e : Option RegRecord) : List String :=
  match e with
  | none => []
  | some r =>
    match r.customPaths with
    | some l => l
    | none => r.paths.getD []

/-- `removeTool(name, options)` (tool-management module, non-dry-run path
made explicit).  Rejects the reserved name `bin`, the empty name, and any
name whose joined path escapes the agent-tools root; then removes symlinks,
unregisters the tool's heading from every preset file and recorded custom
path, deletes the registry record, and removes the tool directory. -/
def removeTool (home : String) (removeSymlinks : SysFs → SysFs)
    (name : String) (dryRun : Bool) (fs : SysFs) : RemoveResult × SysFs :=
  if name = "" ∨ name = "bin" then (removeNotFound name, fs)
  else
    let toolPath := joinPath (agentToolsDir home) name
    if ¬ strStartsWith toolPath (agentToolsDir home ++ "/") then
      (removeNotFound name, fs)
    else if ¬ (toolPath ∈ fs.dirs) then (removeNotFound name, fs)
    else
      let heading := (getToolHeading name).data
      let registry := loadRegistry fs.registryStore
      if dryRun then (⟨true, none, true⟩, fs)
      else
        let fs1 := removeSymlinks fs
        let fs2 := (PRESETS.map (·.2)).foldl
          (fun a p => (unregisterEntryFs home a p heading).2) fs1
        let customPaths := recordCustomPaths (regLookup registry.registrations name)
        let fs3 := customPaths.foldl
          (fun a p => (unregisterEntryFs home a p heading).2) fs2
        let fs4 := removeFromRegistryFs fs3 name
        let fs5 := rmRecursive fs4 toolPath
        (⟨true, none, false⟩, fs5)

/-! # Theorems -/

/-! ## C7: concrete update scenario -/

/-- C7: Given file content `"### Fetch Tools\n\nOld text\n\n### Other Tools\nX\n"`,
registering entry content `"### Fetch Tools\n\nNew text"` returns status
`updated`, performs a write, and leaves the file containing exactly
`"### Fetch Tools\n\nNew text\n\n### Other Tools\nX\n"` — in particular the
`### Other Tools` section is byte-for-byte untouched. -/
theorem register_update_scenario :
    registerEntry (some ("### Fetch Tools\n\nOld text\n\n### Other Tools\nX\n".toList))
        ("### Fetch Tools\n\nNew text".toList)
      = ⟨.updated, "### Fetch Tools\n\nNew text\n\n### Other Tools\nX\n".toList,
          true, true⟩ := by
  decide

/-! ## C10: resolvePath -/

/-- C10: `resolvePath` expands exactly the inputs beginning with the
two-character prefix `~/` (replacing it by the home directory and joining the
remainder on) and returns every other string unchanged: the bare `~`, any
`~user/…` form (second character not `/`), and any string not starting with
`~` (absolute or relative) all pass through verbatim.  As a Lean function it
is total and deterministic on all string inputs. -/
theorem resolvePath_spec :
    (∀ home p, strStartsWith p "~/" = true →
      resolvePath home p = joinPath home (strDrop p 2)) ∧
    (∀ home p, strStartsWith p "~/" = false → resolvePath home p = p) ∧
    (∀ home p, p.data = ['~'] → resolvePath home p = p) ∧
    (∀ home p c2 cs, p.data = '~' :: c2 :: cs → ¬ c2 = '/' →
      resolvePath home p = p) ∧
    (∀ home p c cs, p.data = c :: cs → ¬ c = '~' → resolvePath home p = p) ∧
    (∀ home, resolvePath home "" = "") := by
  have hdata : ("~/" : String).data = ['~', '/'] := rfl
  refine ⟨fun home p h => ?_, fun home p h => ?_, fun home p h => ?_,
    fun home p c2 cs h hc => ?_, fun home p c cs h hc => ?_, fun home => ?_⟩
  · simp [resolvePath, h]
  · simp [resolvePath, h]
  · have hss : strStartsWith p "~/" = false := by
      simp [strStartsWith, hdata, h, List.isPrefixOf]
    simp [resolvePath, hss]
  · have hss : strStartsWith p "~/" = false := by
      simp only [strStartsWith, hdata, h, List.isPrefixOf]
      simp
      exact fun h2 => hc h2.symm
    simp [resolvePath, hss]
  · have hss : strStartsWith p "~/" = false := by
      simp only [strStartsWith, hdata, h, List.isPrefixOf]
      simp
      intro h1
      exact absurd h1.symm hc
    simp [resolvePath, hss]
  · have hss : strStartsWith "" "~/" = false := by decide
    simp [resolvePath, hss]

/-- Witness for C10 at concrete inputs: `~/x` expands, `~user/x`, `~`, an
absolute path and a relative path pass through. -/
theorem resolvePath_spec_witness :
    resolvePath "/home/u" "~/x" = joinPath "/home/u" (strDrop "~/x" 2) ∧
    resolvePath "/home/u" "~user/x" = "~user/x" ∧
    resolvePath "/home/u" "~" = "~" ∧
    resolvePath "/home/u" "/abs/p" = "/abs/p" ∧
    resolvePath "/home/u" "rel/p" = "rel/p" := by
  refine ⟨resolvePath_spec.1 "/home/u" "~/x" (by decide), ?_, ?_, ?_, ?_⟩
  · exact resolvePath_spec.2.2.2.1 "/home/u" "~user/x" 'u' "ser/x".data rfl (by decide)
  · exact resolvePath_spec.2.2.1 "/home/u" "~" rfl
  · exact resolvePath_spec.2.2.2.2.1 "/home/u" "/abs/p" '/' "abs/p".data rfl (by decide)
  · exact resolvePath_spec.2.2.2.2.1 "/home/u" "rel/p" 'r' "el/p".data rfl (by decide)

/-! ## C9: removeTool input validation -/

/-- C9: `removeTool` rejects the reserved name `bin`, the empty name, and any
name whose joined path does not remain strictly under the agent-tools root
(e.g. path traversal through `..`): for all such names it returns the
failure result carrying the "not found" error and the filesystem state is
returned untouched — nothing is deleted. -/
theorem removeTool_rejects_invalid_names (home : String)
    (removeSymlinks : SysFs → SysFs) (name : String) (dryRun : Bool) (fs : SysFs)
    (h : name = "" ∨ name = "bin" ∨
      strStartsWith (joinPath (agentToolsDir home) name)
        (agentToolsDir home ++ "/") = false) :
    removeTool home removeSymlinks name dryRun fs = (removeNotFound name, fs) := by
  rcases h with h | h | h
  · simp [removeTool, h]
  · simp [removeTool, h]
  · by_cases h0 : name = "" ∨ name = "bin"
    · simp [removeTool, h0]
    · simp [removeTool, h0, h]

/-- Witness for C9: the traversal name `../evil` (whose joined path escapes
`/home/user/agent-tools`), the reserved name `bin`, and the empty name are
all rejected on a sample filesystem that does contain tool directories. -/
theorem removeTool_rejects_invalid_names_witness :
    removeTool "/home/user" id "../evil" false
        ⟨[], ["/home/user/agent-tools/fetch"], none⟩
      = (removeNotFound "../evil", ⟨[], ["/home/user/agent-tools/fetch"], none⟩) ∧
    removeTool "/home/user" id "bin" false ⟨[], [], none⟩
      = (removeNotFound "bin", ⟨[], [], none⟩) ∧
    removeTool "/home/user" id "" false ⟨[], [], none⟩
      = (removeNotFound "", ⟨[], [], none⟩) := by
  refine ⟨?_, ?_, ?_⟩
  · exact removeTool_rejects_invalid_names "/home/user" id "../evil" false _
      (Or.inr (Or.inr (by decide)))
  · exact removeTool_rejects_invalid_names "/home/user" id "bin" false _
      (Or.inr (Or.inl rfl))
  · exact removeTool_rejects_invalid_names "/home/user" id "" false _ (Or.inl rfl)

/-! ## C5: default preset fallback -/

theorem firstExistingPreset_eq_find (ex : String → Bool) (home : String) :
    ∀ l : List String,
      firstExistingPreset ex home l
        = (l.find? (fun p => ex (resolvePath home p))).toList := by
  intro l
  induction l with
  | nil => rfl
  | cons p rest ih =>
    by_cases h : ex (resolvePath home p)
    · simp [firstExistingPreset, h, List.find?]
    · simp only [firstExistingPreset, h, if_false, List.find?]
      rw [ih]
      simp [h]

/-- C5: with no explicit override paths, the all-presets flag unset and the
local flag unset, `resolveAllPaths` returns exactly the first preset in the
fixed priority order whose resolved location exists — never more than one
path — and the empty list (not an error) when no preset location exists. -/
theorem resolveAllPaths_default_first_preset (ex : String → Bool)
    (home cwd : String) (cfg : EffectiveConfig)
    (h1 : cfg.registerPaths = []) (h2 : cfg.allPresets = false)
    (h3 : cfg.localFlag = false) :
    resolveAllPaths ex home cwd cfg
        = (PRESET_PRIORITY.find? (fun p => ex (resolvePath home p))).toList ∧
    (resolveAllPaths ex home cwd cfg).length ≤ 1 ∧
    ((∀ p ∈ PRESET_PRIORITY, ex (resolvePath home p) = false) →
      resolveAllPaths ex home cwd cfg = []) := by
  have hbase : resolveAllPaths ex home cwd cfg
      = firstExistingPreset ex home PRESET_PRIORITY := by
    simp [resolveAllPaths, h1, h2, h3]
  rw [hbase, firstExistingPreset_eq_find]
  refine ⟨rfl, ?_, ?_⟩
  · cases PRESET_PRIORITY.find? (fun p => ex (resolvePath home p)) <;> simp
  · intro hall
    rw [List.find?_eq_none.mpr]
    · rfl
    · intro p hp
      simp [hall p hp]

/-- Witness for C5: when only the claude preset file exists, the result is
exactly `["~/.claude/CLAUDE.md"]` (the pi preset is missing, so the second
priority entry wins and the scan stops there). -/
theorem resolveAllPaths_default_first_preset_witness :
    resolveAllPaths (fun s => s == "/home/u/.claude/CLAUDE.md") "/home/u" "/cwd"
        ⟨[], false, false⟩ = ["~/.claude/CLAUDE.md"] ∧
    resolveAllPaths (fun _ => false) "/home/u" "/cwd" ⟨[], false, false⟩ = [] := by
  constructor
  · exact (resolveAllPaths_default_first_preset
      (fun s => s == "/home/u/.claude/CLAUDE.md") "/home/u" "/cwd"
      ⟨[], false, false⟩ rfl rfl rfl).1.trans (by decide)
  · exact (resolveAllPaths_default_first_preset
      (fun _ => false) "/home/u" "/cwd" ⟨[], false, false⟩ rfl rfl rfl).2.2
      (fun p _ => rfl)

/-! ## C6: corrupt or missing persistent state -/

/-- C6: loading the persistent stores is total and forgiving: a missing
registry file or one whose contents fail to parse yields the empty registry
`{registrations: {}}`; a missing or unparseable manifest file reads as
`none`; and a directory whose manifest is absent/corrupt does not fail a
forced write — `writeOutput` proceeds (treating the directory as unmanaged)
and returns a new directory state. -/
theorem corrupt_state_treated_as_absent :
    loadRegistry none = ⟨[]⟩ ∧
    loadRegistry (some .corrupt) = ⟨[]⟩ ∧
    (∀ d : DirState, fsLookup d MANIFEST_FILE = none → readManifest d = none) ∧
    (∀ (d : DirState) (s : String) (e : Bool),
      fsLookup d MANIFEST_FILE = some ⟨.text s, e⟩ → readManifest d = none) ∧
    (∀ (d : DirState) (files : List (String × String)) (pkg now : String),
      readManifest d = none →
      ∃ d2, writeOutput false true (some d) files pkg now = .ok (some d2)) := by
  refine ⟨rfl, rfl, fun d h => ?_, fun d s e h => ?_, fun d files pkg now h => ?_⟩
  · simp [readManifest, h]
  · simp [readManifest, h]
  · exact ⟨fsWrite (writeFiles [] files) MANIFEST_FILE
      (.manifestData (createManifest pkg (files.map (·.1)) now)),
        by simp [writeOutput, h]⟩

/-- Witness for C6: a directory whose manifest file holds unparseable text
reads as unmanaged and a forced write still succeeds. -/
theorem corrupt_state_treated_as_absent_witness :
    readManifest [(".mcp2cli-manifest.json", ⟨.text "garbage", false⟩)] = none ∧
    ∃ d2, writeOutput false true
        (some [(".mcp2cli-manifest.json", ⟨.text "garbage", false⟩)])
        [("a.js", "x")] "pkg" "t1" = .ok (some d2) := by
  constructor
  · exact corrupt_state_treated_as_absent.2.2.2.1 _ "garbage" false rfl
  · exact corrupt_state_treated_as_absent.2.2.2.2 _ [("a.js", "x")] "pkg" "t1"
      (corrupt_state_treated_as_absent.2.2.2.1 _ "garbage" false rfl)

/-! ## Directory-state lemmas for the output writer -/

theorem fsLookup_fsWrite_self (d : DirState) (n : String) (v : FileData) :
    ∃ e, fsLookup (fsWrite d n v) n = some ⟨v, e⟩ := by
  induction d with
  | nil => exact ⟨false, by simp [fsWrite, fsLookup]⟩
  | cons kv rest ih =>
    obtain ⟨k, fd⟩ := kv
    by_cases h : k = n
    · exact ⟨fd.exec, by simp [fsWrite, fsLookup, h]⟩
    · obtain ⟨e, he⟩ := ih
      exact ⟨e, by simp [fsWrite, fsLookup, h, he]⟩

theorem fsLookup_fsWrite_other (d : DirState) (n f : String) (v : FileData)
    (h : ¬ n = f) : fsLookup (fsWrite d n v) f = fsLookup d f := by
  induction d with
  | nil => simp [fsWrite, fsLookup, h]
  | cons kv rest ih =>
    obtain ⟨k, fd⟩ := kv
    by_cases hk : k = n
    · subst hk
      simp [fsWrite, fsLookup, h]
    · simp [fsWrite, fsLookup, hk, ih]

theorem fsLookup_fsChmod_self (d : DirState) (n : String) (x : Bool) :
    fsLookup (fsChmod d n x) n
      = (fsLookup d n).map (fun fd => ⟨fd.data, x⟩) := by
  induction d with
  | nil => simp [fsChmod, fsLookup]
  | cons kv rest ih =>
    obtain ⟨k, fd⟩ := kv
    by_cases hk : k = n
    · simp [fsChmod, fsLookup, hk]
    · simp [fsChmod, fsLookup, hk, ih]

theorem fsLookup_fsChmod_other (d : DirState) (n f : String) (x : Bool)
    (h : ¬ n = f) : fsLookup (fsChmod d n x) f = fsLookup d f := by
  induction d with
  | nil => simp [fsChmod, fsLookup]
  | cons kv rest ih =>
    obtain ⟨k, fd⟩ := kv
    by_cases hk : k = n
    · subst hk
      simp [fsChmod, fsLookup, h]
    · simp [fsChmod, fsLookup, hk, ih]

theorem fsLookup_fsErase_self (d : DirState) (n : String) :
    fsLookup (fsErase d n) n = none := by
  induction d with
  | nil => simp [fsErase, fsLookup]
  | cons kv rest ih =>
    obtain ⟨k, fd⟩ := kv
    by_cases hk : k = n
    · simp [fsErase, hk, ih]
    · simp [fsErase, fsLookup, hk, ih]

theorem fsLookup_fsErase_other (d : DirState) (n f : String) (h : ¬ n = f) :
    fsLookup (fsErase d n) f = fsLookup d f := by
  induction d with
  | nil => simp [fsErase]
  | cons kv rest ih =>
    obtain ⟨k, fd⟩ := kv
    by_cases hk : k = n
    · subst hk
      simp [fsErase, fsLookup, h, ih]
    · simp [fsErase, fsLookup, hk, ih]

theorem fsLookup_fsErase_none (d : DirState) (n f : String)
    (h : fsLookup d f = none) : fsLookup (fsErase d n) f = none := by
  by_cases hn : n = f
  · subst hn
    exact fsLookup_fsErase_self d n
  · rw [fsLookup_fsErase_other d n f hn]
    exact h

theorem fsLookup_foldl_fsErase_none (L : List String) :
    ∀ (d : DirState) (f : String), fsLookup d f = none →
      fsLookup (L.foldl fsErase d) f = none := by
  induction L with
  | nil => intro d f h; exact h
  | cons g rest ih =>
    intro d f h
    simp only [List.foldl_cons]
    exact ih _ f (fsLookup_fsErase_none d g f h)

theorem fsLookup_foldl_fsErase_mem (L : List String) :
    ∀ (d : DirState) (f : String), f ∈ L →
      fsLookup (L.foldl fsErase d) f = none := by
  induction L with
  | nil => intro d f h; cases h
  | cons g rest ih =>
    intro d f h
    simp only [List.foldl_cons]
    rcases List.mem_cons.mp h with h | h
    · subst h
      exact fsLookup_foldl_fsErase_none rest _ f (fsLookup_fsErase_self d f)
    · exact ih (fsErase d g) f h

theorem fsLookup_foldl_fsErase_notMem (L : List String) :
    ∀ (d : DirState) (f : String), f ∉ L →
      fsLookup (L.foldl fsErase d) f = fsLookup d f := by
  induction L with
  | nil => intro d f _; rfl
  | cons g rest ih =>
    intro d f h
    have hg : ¬ g = f := fun hgf => h (hgf ▸ List.mem_cons_self g rest)
    have hrest : f ∉ rest := fun hf => h (List.mem_cons_of_mem g hf)
    simp only [List.foldl_cons]
    rw [ih _ f hrest, fsLookup_fsErase_other d g f hg]

theorem writeFiles_cons (d : DirState) (g c : String)
    (rest : List (String × String)) :
    writeFiles d ((g, c) :: rest)
      = writeFiles (if isScript g then fsChmod (fsWrite d g (.text c)) g true
          else fsWrite d g (.text c)) rest := by
  simp [writeFiles]

theorem writeFiles_frame (files : List (String × String)) :
    ∀ (d : DirState) (f : String), f ∉ files.map Prod.fst →
      fsLookup (writeFiles d files) f = fsLookup d f := by
  induction files with
  | nil => intro d f _; rfl
  | cons fc rest ih =>
    intro d f h
    obtain ⟨g, c⟩ := fc
    have hg : ¬ g = f := by
      intro hgf
      exact h (by simp [hgf])
    have hrest : f ∉ rest.map Prod.fst := by
      intro hf
      exact h (by simp [hf])
    rw [writeFiles_cons, ih _ f hrest]
    by_cases hs : isScript g = true
    · rw [if_pos hs, fsLookup_fsChmod_other _ g f true hg,
        fsLookup_fsWrite_other d g f _ hg]
    · rw [if_neg hs, fsLookup_fsWrite_other d g f _ hg]

theorem writeFiles_lookup_mem (files : List (String × String)) :
    ∀ (d : DirState) (f : String) (c : String),
      (files.map Prod.fst).Nodup → (f, c) ∈ files →
      ∃ e, fsLookup (writeFiles d files) f = some ⟨.text c, e⟩ ∧
        (isScript f = true → e = true) := by
  induction files with
  | nil => intro d f c _ h; cases h
  | cons fc rest ih =>
    intro d f c hnodup hmem
    obtain ⟨g, c0⟩ := fc
    rcases List.mem_cons.mp hmem with h | h
    · cases h
      have hnotin : f ∉ rest.map Prod.fst := by
        simp only [List.map_cons, List.nodup_cons] at hnodup
        exact hnodup.1
      rw [writeFiles_cons, writeFiles_frame rest _ f hnotin]
      obtain ⟨e0, he0⟩ := fsLookup_fsWrite_self d f (.text c)
      by_cases hs : isScript f = true
      · refine ⟨true, ?_, fun _ => rfl⟩
        rw [if_pos hs, fsLookup_fsChmod_self, he0]
        rfl
      · refine ⟨e0, ?_, fun hcon => absurd hcon hs⟩
        rw [if_neg hs]
        exact he0
    · have hg : ¬ g = f := by
        intro hgf
        subst hgf
        have hmaps : g ∈ rest.map Prod.fst := by
          exact List.mem_map.mpr ⟨(g, c), h, rfl⟩
        simp only [List.map_cons, List.nodup_cons] at hnodup
        exact hnodup.1 hmaps
      have hnodup2 : (rest.map Prod.fst).Nodup := by
        simp only [List.map_cons, List.nodup_cons] at hnodup
        exact hnodup.2
      rw [writeFiles_cons]
      exact ih _ f c hnodup2 h

theorem writeOutput_dest (st : Option DirState) (files : List (String × String))
    (force : Bool) (pkg now : String) (d2 : DirState)
    (hok : writeOutput false force st files pkg now = .ok (some d2)) :
    ∃ d1, d2 = fsWrite (writeFiles d1 files) MANIFEST_FILE
      (.manifestData (createManifest pkg (files.map (·.1)) now)) := by
  match st with
  | none =>
    refine ⟨[], ?_⟩
    simp only [writeOutput, if_false, Bool.false_eq_true] at hok
    simp at hok
    exact hok.symm
  | some d =>
    by_cases hf : force
    · subst hf
      match hm : readManifest d with
      | some m =>
        refine ⟨fsErase (m.files.foldl fsErase d) MANIFEST_FILE, ?_⟩
        simp only [writeOutput, hm] at hok
        simp at hok
        exact hok.symm
      | none =>
        refine ⟨[], ?_⟩
        simp only [writeOutput, hm] at hok
        simp at hok
        exact hok.symm
    · exfalso
      have : force = false := by simpa using hf
      subst this
      simp [writeOutput] at hok

/-! ## C3: manifest invariant after a successful write -/

/-- C3: after every successful non-dry-run `writeOutput`, the output
directory contains a manifest whose `files` list is exactly the list of
filenames passed to the call with the manifest's own filename filtered out,
every listed file exists on disk, and every written file whose name ends in
`.js` or `.sh` carries the executable bit. -/
theorem writeOutput_manifest_invariant (st : Option DirState)
    (files : List (String × String)) (force : Bool) (pkg now : String)
    (d2 : DirState)
    (hnodup : (files.map Prod.fst).Nodup)
    (hok : writeOutput false force st files pkg now = .ok (some d2)) :
    (∃ e, fsLookup d2 MANIFEST_FILE = some
      ⟨.manifestData ⟨1, pkg, now,
        (files.map Prod.fst).filter (fun f => ¬ f = MANIFEST_FILE)⟩, e⟩) ∧
    (∀ f ∈ (files.map Prod.fst).filter (fun f => ¬ f = MANIFEST_FILE),
      (fsLookup d2 f).isSome) ∧
    (∀ f c, (f, c) ∈ files → isScript f = true →
      ∃ fd, fsLookup d2 f = some fd ∧ fd.exec = true) := by
  obtain ⟨d1, hd2⟩ := writeOutput_dest st files force pkg now d2 hok
  subst hd2
  refine ⟨?_, ?_, ?_⟩
  · obtain ⟨e, he⟩ := fsLookup_fsWrite_self (writeFiles d1 files) MANIFEST_FILE
      (.manifestData (createManifest pkg (files.map (·.1)) now))
    exact ⟨e, by rw [he]; rfl⟩
  · intro f hf
    have hf2 := List.mem_filter.mp hf
    have hfm : ¬ f = MANIFEST_FILE := by simpa using hf2.2
    obtain ⟨⟨g, c⟩, hmem, hfst⟩ := List.mem_map.mp hf2.1
    subst hfst
    obtain ⟨e, he, _⟩ := writeFiles_lookup_mem files d1 g c hnodup hmem
    rw [fsLookup_fsWrite_other _ MANIFEST_FILE g _ (fun hh => hfm hh.symm), he]
    rfl
  · intro f c hmem hscript
    obtain ⟨e, he, hse⟩ := writeFiles_lookup_mem files d1 f c hnodup hmem
    have hfm : ¬ MANIFEST_FILE = f := by
      intro hh
      subst hh
      exact absurd hscript (by decide)
    refine ⟨⟨.text c, e⟩, ?_, hse hscript⟩
    rw [fsLookup_fsWrite_other _ MANIFEST_FILE f _ hfm]
    exact he

/-- Witness for C3 at a concrete call: two files, one of them a script. -/
theorem writeOutput_manifest_invariant_witness :
    ∃ d2, writeOutput false false none [("a.js", "x"), ("b.txt", "y")] "pkg" "t1"
        = .ok (some d2) ∧
      (∃ e, fsLookup d2 MANIFEST_FILE = some
        ⟨.manifestData ⟨1, "pkg", "t1", ["a.js", "b.txt"]⟩, e⟩) ∧
      (∃ fd, fsLookup d2 "a.js" = some fd ∧ fd.exec = true) := by
  refine ⟨_, rfl, ?_, ?_⟩
  · have h := (writeOutput_manifest_invariant none [("a.js", "x"), ("b.txt", "y")]
      false "pkg" "t1" _ (by decide) rfl).1
    exact h
  · exact (writeOutput_manifest_invariant none [("a.js", "x"), ("b.txt", "y")]
      false "pkg" "t1" _ (by decide) rfl).2.2 "a.js" "x" (by decide) (by decide)

/-! ## C2: user-file preservation under forced re-write -/

/-- C2 (counterexample to the claim as stated): in a managed directory whose
manifest lists `a.js`, with the unlisted user file `u.txt` containing `"hi"`,
a forced non-dry-run write whose new file set happens to include the name
`u.txt` overwrites that user file — its content after the call is `"new"`,
not `"hi"`.  The unqualified claim "the unlisted user file is left present
with unchanged content" is therefore false. -/
theorem writeOutput_user_file_overwritten :
    ∃ d2,
      writeOutput false true
          (some [("a.js", ⟨.text "old", true⟩),
                 (".mcp2cli-manifest.json",
                   ⟨.manifestData ⟨1, "pkg", "t0", ["a.js"]⟩, false⟩),
                 ("u.txt", ⟨.text "hi", false⟩)])
          [("u.txt", "new")] "pkg" "t1" = .ok (some d2) ∧
      ¬ fsLookup d2 "u.txt" = some ⟨.text "hi", false⟩ := by
  exact ⟨_, rfl, by decide⟩

/-- C2 (amended): in a managed directory (valid manifest, i.e. one not
listing the manifest file itself) holding an unlisted user file whose name
is not among the newly written files, a forced non-dry-run `writeOutput`
succeeds, leaves the user file present with unchanged content and mode,
deletes every file listed in the old manifest that is not re-written, and
writes every file of the new set. -/
theorem writeOutput_preserves_user_files (d : DirState) (m : Manifest)
    (files : List (String × String)) (pkg now : String)
    (u : String) (fd : DirFile)
    (hm : readManifest d = some m)
    (hma : MANIFEST_FILE ∉ m.files)
    (hmb : MANIFEST_FILE ∉ files.map Prod.fst)
    (hu : fsLookup d u = some fd)
    (hu1 : u ∉ m.files)
    (hu2 : ¬ u = MANIFEST_FILE)
    (hu3 : u ∉ files.map Prod.fst)
    (hnodup : (files.map Prod.fst).Nodup) :
    ∃ d2,
      writeOutput false true (some d) files pkg now = .ok (some d2) ∧
      fsLookup d2 u = some fd ∧
      (∀ f ∈ m.files, f ∉ files.map Prod.fst → fsLookup d2 f = none) ∧
      (∀ f c, (f, c) ∈ files → ∃ e, fsLookup d2 f = some ⟨.text c, e⟩) := by
  refine ⟨fsWrite (writeFiles (fsErase (m.files.foldl fsErase d) MANIFEST_FILE) files)
      MANIFEST_FILE (.manifestData (createManifest pkg (files.map (·.1)) now)),
    by simp [writeOutput, hm], ?_, ?_, ?_⟩
  · rw [fsLookup_fsWrite_other _ MANIFEST_FILE u _ (fun hh => hu2 hh.symm),
      writeFiles_frame files _ u hu3,
      fsLookup_fsErase_other _ MANIFEST_FILE u (fun hh => hu2 hh.symm),
      fsLookup_foldl_fsErase_notMem m.files d u hu1]
    exact hu
  · intro f hf hf2
    have hfm : ¬ f = MANIFEST_FILE := fun hh => hma (hh ▸ hf)
    rw [fsLookup_fsWrite_other _ MANIFEST_FILE f _ (fun hh => hfm hh.symm),
      writeFiles_frame files _ f hf2,
      fsLookup_fsErase_other _ MANIFEST_FILE f (fun hh => hfm hh.symm)]
    exact fsLookup_foldl_fsErase_mem m.files d f hf
  · intro f c hfc
    have hfm : ¬ MANIFEST_FILE = f := by
      intro hh
      exact hmb (hh ▸ List.mem_map.mpr ⟨(f, c), hfc, rfl⟩)
    obtain ⟨e, he, _⟩ := writeFiles_lookup_mem files
      (fsErase (m.files.foldl fsErase d) MANIFEST_FILE) f c hnodup hfc
    refine ⟨e, ?_⟩
    rw [fsLookup_fsWrite_other _ MANIFEST_FILE f _ hfm]
    exact he

/-- Witness for the amended C2 at a concrete managed directory: `u.txt`
survives unchanged, `a.js` (manifest-listed, not re-written) is gone, and
`b.js` (the new set) is written. -/
theorem writeOutput_preserves_user_files_witness :
    ∃ d2,
      writeOutput false true
          (some [("a.js", ⟨.text "old", true⟩),
                 (".mcp2cli-manifest.json",
                   ⟨.manifestData ⟨1, "pkg", "t0", ["a.js"]⟩, false⟩),
                 ("u.txt", ⟨.text "hi", false⟩)])
          [("b.js", "newbody")] "pkg" "t1" = .ok (some d2) ∧
      fsLookup d2 "u.txt" = some ⟨.text "hi", false⟩ ∧
      (∀ f ∈ ["a.js"], f ∉ [("b.js", "newbody")].map Prod.fst →
        fsLookup d2 f = none) ∧
      (∀ f c, (f, c) ∈ [("b.js", "newbody")] →
        ∃ e, fsLookup d2 f = some ⟨.text c, e⟩) := by
  obtain ⟨d2, h1, h2, h3, h4⟩ := writeOutput_preserves_user_files
    [("a.js", ⟨.text "old", true⟩),
     (".mcp2cli-manifest.json", ⟨.manifestData ⟨1, "pkg", "t0", ["a.js"]⟩, false⟩),
     ("u.txt", ⟨.text "hi", false⟩)]
    ⟨1, "pkg", "t0", ["a.js"]⟩ [("b.js", "newbody")] "pkg" "t1" "u.txt"
    ⟨.text "hi", false⟩ rfl (by decide) (by decide) (by decide) (by decide)
    (by decide) (by decide) (by decide)
  exact ⟨d2, h1, h2, h3, h4⟩

/-! ## C8: preset registrations leak into the registry via refresh -/

/-- C8 (evaluation at the failing input): `updateRegistry` ignores exactly
the verbatim `~/…` preset strings.  `registerEntry` invoked with the
unresolved preset path `~/.pi/agent/AGENTS.md` on a stale section leaves the
registry unchanged, but the refresh flow calls
`registerEntry(resolvePath(path), entry, name)` — passing the resolved path
`/home/user/.pi/agent/AGENTS.md`, which is not a member of `PRESET_PATHS` —
and that same call records the resolved preset location as a custom path in
the registry.  So registering a tool to a preset target does, through
`refreshTool`, create a registry record, contradicting the claim (and the
code's own comment "Only stores non-preset paths"). -/
theorem refresh_records_resolved_preset_path :
    ((registerEntryWithRegistry "~/.pi/agent/AGENTS.md"
        (some ("### Fetch Tools\n\nstale\n".toList))
        ("### Fetch Tools\n\n**fetch** - fetch tool".toList)
        "fetch" "2024-01-01T00:00:00.000Z" ⟨[]⟩).2 = ⟨[]⟩) ∧
    resolvePath "/home/user" "~/.pi/agent/AGENTS.md"
        = "/home/user/.pi/agent/AGENTS.md" ∧
    ((registerEntryWithRegistry (resolvePath "/home/user" "~/.pi/agent/AGENTS.md")
        (some ("### Fetch Tools\n\nstale\n".toList))
        ("### Fetch Tools\n\n**fetch** - fetch tool".toList)
        "fetch" "2024-01-01T00:00:00.000Z" ⟨[]⟩).2
      = ⟨[("fetch", ⟨some ["/home/user/.pi/agent/AGENTS.md"], none, none,
          "2024-01-01T00:00:00.000Z"⟩)]⟩) := by
  refine ⟨by decide, by decide, by decide⟩

/-! ## String toolkit for the registration proofs -/

theorem takeIsPre (n : Nat) (l : List Char) : l.take n <+: l :=
  ⟨l.drop n, l.take_append_drop n⟩

theorem pref_of_pref_append (p a b : Str) (h : p <+: a ++ b)
    (hl : p.length ≤ a.length) : p <+: a := by
  have h1 : p = (a ++ b).take p.length := List.prefix_iff_eq_take.mp h
  rw [List.take_append_of_le_length hl] at h1
  rw [h1]
  exact takeIsPre _ _

theorem pref_getElem? (p l : Str) (h : p <+: l) (k : Nat) (hk : k < p.length) :
    l[k]? = p[k]? := by
  obtain ⟨r, hr⟩ := h
  rw [← hr]
  exact List.getElem?_append_left hk

theorem pref_of_getElem? (p l : Str) (j : Nat)
    (h : ∀ k, k < p.length → l[j + k]? = p[k]?) : p <+: l.drop j := by
  have hpl : p = (l.drop j).take p.length := by
    apply List.ext_getElem?
    intro n
    by_cases hn : n < p.length
    · rw [List.getElem?_take_of_lt hn, List.getElem?_drop, h n hn]
    · rw [List.getElem?_take_eq_none (Nat.le_of_not_lt hn),
        List.getElem?_eq_none (Nat.le_of_not_lt hn)]
  rw [hpl]
  exact takeIsPre _ _

theorem isPrefixOfIff {a b : Str} : a.isPrefixOf b = true ↔ a <+: b :=
  List.isPrefixOf_iff_prefix

theorem indexOfSub_eq_some_iff (pat : Str) :
    ∀ (s : Str) (i : Nat),
      indexOfSub s pat = some i ↔
        (pat <+: s.drop i ∧ ∀ j, j < i → ¬ pat <+: s.drop j) := by
  intro s
  induction s with
  | nil =>
    intro i
    constructor
    · intro h
      simp only [indexOfSub] at h
      by_cases hp : pat.isPrefixOf ([] : Str)
      · rw [if_pos hp] at h
        cases h
        exact ⟨isPrefixOfIff.mp hp, fun j hj => absurd hj (Nat.not_lt_zero j)⟩
      · rw [if_neg hp] at h
        cases h
    · intro ⟨h1, h2⟩
      simp only [List.drop_nil] at h1
      have hpat : pat = [] := List.prefix_nil.mp h1
      subst hpat
      match i with
      | 0 => simp [indexOfSub]
      | i0 + 1 => exact absurd (h2 0 (Nat.succ_pos i0)) (by simp)
  | cons c rest ih =>
    intro i
    constructor
    · intro h
      simp only [indexOfSub] at h
      by_cases hp : pat.isPrefixOf (c :: rest)
      · rw [if_pos hp] at h
        cases h
        exact ⟨isPrefixOfIff.mp hp,
          fun j hj => absurd hj (Nat.not_lt_zero j)⟩
      · rw [if_neg hp] at h
        simp only [Option.map_eq_some'] at h
        obtain ⟨i0, hi0, rfl⟩ := h
        obtain ⟨ha, hb⟩ := (ih i0).mp hi0
        refine ⟨by simpa using ha, ?_⟩
        intro j hj
        match j with
        | 0 =>
          simpa using fun hcon => hp (isPrefixOfIff.mpr hcon)
        | j0 + 1 =>
          have : j0 < i0 := by omega
          simpa using hb j0 this
    · intro ⟨h1, h2⟩
      simp only [indexOfSub]
      match i with
      | 0 =>
        simp only [List.drop_zero] at h1
        rw [if_pos (isPrefixOfIff.mpr h1)]
      | i0 + 1 =>
        have hp : ¬ pat.isPrefixOf (c :: rest) := by
          intro hcon
          exact h2 0 (Nat.succ_pos i0)
            (by simpa using isPrefixOfIff.mp hcon)
        rw [if_neg hp]
        have : indexOfSub rest pat = some i0 := by
          apply (ih i0).mpr
          refine ⟨by simpa using h1, ?_⟩
          intro j hj
          have := h2 (j + 1) (by omega)
          simpa using this
        rw [this]
        rfl

theorem indexOfSub_eq_none_iff (pat : Str) :
    ∀ s : Str, indexOfSub s pat = none ↔ ∀ j, ¬ pat <+: s.drop j := by
  intro s
  induction s with
  | nil =>
    constructor
    · intro h j
      simp only [indexOfSub] at h
      by_cases hp : pat.isPrefixOf ([] : Str)
      · rw [if_pos hp] at h; cases h
      · simp only [List.drop_nil]
        exact fun hcon => hp (isPrefixOfIff.mpr hcon)
    · intro h
      simp only [indexOfSub]
      rw [if_neg (fun hcon => h 0 (by simpa using isPrefixOfIff.mp hcon))]
  | cons c rest ih =>
    constructor
    · intro h j
      simp only [indexOfSub] at h
      by_cases hp : pat.isPrefixOf (c :: rest)
      · rw [if_pos hp] at h; cases h
      · rw [if_neg hp] at h
        simp only [Option.map_eq_none'] at h
        match j with
        | 0 => simpa using fun hcon => hp (isPrefixOfIff.mpr hcon)
        | j0 + 1 => simpa using (ih.mp h) j0
    · intro h
      simp only [indexOfSub]
      rw [if_neg (fun hcon => h 0 (by simpa using isPrefixOfIff.mp hcon))]
      rw [ih.mpr (fun j => by simpa using h (j + 1))]
      rfl

theorem nextHeadingIdx_eq_some_iff :
    ∀ (s : Str) (i : Nat),
      nextHeadingIdx s = some i ↔
        (isNextHeadingAt (s.drop i) = true ∧
          ∀ j, j < i → isNextHeadingAt (s.drop j) = false) := by
  intro s
  induction s with
  | nil =>
    intro i
    constructor
    · intro h; cases h
    · intro ⟨h1, _⟩
      simp only [List.drop_nil] at h1
      simp [isNextHeadingAt] at h1
  | cons c rest ih =>
    intro i
    constructor
    · intro h
      simp only [nextHeadingIdx] at h
      by_cases hp : isNextHeadingAt (c :: rest)
      · rw [if_pos hp] at h
        cases h
        exact ⟨hp, fun j hj => absurd hj (Nat.not_lt_zero j)⟩
      · rw [if_neg hp] at h
        simp only [Option.map_eq_some'] at h
        obtain ⟨i0, hi0, rfl⟩ := h
        obtain ⟨ha, hb⟩ := (ih i0).mp hi0
        refine ⟨by simpa using ha, ?_⟩
        intro j hj
        match j with
        | 0 => simpa using hp
        | j0 + 1 =>
          have : j0 < i0 := by omega
          simpa using hb j0 this
    · intro ⟨h1, h2⟩
      simp only [nextHeadingIdx]
      match i with
      | 0 =>
        simp only [List.drop_zero] at h1
        rw [if_pos h1]
      | i0 + 1 =>
        have hp : isNextHeadingAt (c :: rest) = false := by
          simpa using h2 0 (Nat.succ_pos i0)
        rw [if_neg (by simp [hp])]
        have : nextHeadingIdx rest = some i0 := by
          apply (ih i0).mpr
          exact ⟨by simpa using h1, fun j hj => by simpa using h2 (j + 1) (by omega)⟩
        rw [this]
        rfl

theorem nextHeadingIdx_eq_none_iff :
    ∀ s : Str, nextHeadingIdx s = none ↔
      ∀ j, isNextHeadingAt (s.drop j) = false := by
  intro s
  induction s with
  | nil =>
    constructor
    · intro _ j
      simp only [List.drop_nil]
      rfl
    · intro _; rfl
  | cons c rest ih =>
    constructor
    · intro h j
      simp only [nextHeadingIdx] at h
      by_cases hp : isNextHeadingAt (c :: rest)
      · rw [if_pos hp] at h; cases h
      · rw [if_neg hp] at h
        simp only [Option.map_eq_none'] at h
        match j with
        | 0 => simpa using hp
        | j0 + 1 => simpa using (ih.mp h) j0
    · intro h
      simp only [nextHeadingIdx]
      rw [if_neg (by simpa using h 0)]
      rw [ih.mpr (fun j => by simpa using h (j + 1))]
      rfl

theorem isNextHeadingAt_iff (l : Str) :
    isNextHeadingAt l = true ↔
      (l[0]? = some '\n' ∧ l[1]? = some '#' ∧ l[2]? = some '#' ∧
        l[3]? = some '#' ∧ ∃ c, l[4]? = some c ∧ isWs c = true) := by
  match l with
  | [] => simp [isNextHeadingAt]
  | [a] =>
    constructor
    · intro h; simp [isNextHeadingAt] at h
    · intro ⟨_, h1, _⟩; simp at h1
  | [a, b] =>
    constructor
    · intro h; simp [isNextHeadingAt] at h
    · intro ⟨_, _, h2, _⟩; simp at h2
  | [a, b, c] =>
    constructor
    · intro h; simp [isNextHeadingAt] at h
    · intro ⟨_, _, _, h3, _⟩; simp at h3
  | [a, b, c, d] =>
    constructor
    · intro h; simp [isNextHeadingAt] at h
    · intro ⟨_, _, _, _, e, h4, _⟩; simp at h4
  | a :: b :: c :: d :: e :: rest =>
    constructor
    · intro h
      simp only [isNextHeadingAt] at h
      split at h
      · next heq =>
        injection heq with ha heq
        injection heq with hb heq
        injection heq with hc heq
        injection heq with hd heq
        injection heq with he heq
        subst ha; subst hb; subst hc; subst hd; subst he
        exact ⟨rfl, rfl, rfl, rfl, _, by simp, h⟩
      · simp at h
    · intro ⟨h0, h1, h2, h3, c4, h4, hws⟩
      simp only [List.getElem?_cons_zero, Option.some.injEq] at h0 h1 h2 h3
      simp only [List.getElem?_cons_succ, List.getElem?_cons_zero,
        Option.some.injEq] at h1 h2 h3 h4
      subst h0; subst h1; subst h2; subst h3
      subst h4
      simpa [isNextHeadingAt] using hws

/-! ## trim facts -/

theorem dropWhile_dropWhile (p : Char → Bool) (l : Str) :
    (l.dropWhile p).dropWhile p = l.dropWhile p := by
  induction l with
  | nil => rfl
  | cons c cs ih =>
    by_cases h : p c
    · simp [List.dropWhile_cons, h, ih]
    · simp [List.dropWhile_cons, h]

theorem dropWhile_head_false (p : Char → Bool) (l : Str) (c : Char) (cs : Str)
    (h : l.dropWhile p = c :: cs) : p c = false := by
  induction l with
  | nil => cases h
  | cons a as ih =>
    by_cases ha : p a
    · rw [List.dropWhile_cons_of_pos ha] at h
      exact ih h
    · rw [List.dropWhile_cons_of_neg ha] at h
      injection h with h1 _
      subst h1
      simpa using ha

theorem dropWhile_fix_head (p : Char → Bool) (l : Str) (c : Char) (cs : Str)
    (hfix : l.dropWhile p = l) (hl : l = c :: cs) : p c = false := by
  subst hl
  exact dropWhile_head_false p (c :: cs) c cs hfix

theorem trimRight_fix_of_last (x : Str) (c : Char) (h : x.getLast? = some c)
    (hc : isWs c = false) : trimRight x = x := by
  unfold trimRight
  have hrev : x.reverse.head? = some c := by rw [List.head?_reverse]; exact h
  have hdw : List.dropWhile isWs x.reverse = x.reverse := by
    match hx : x.reverse with
    | [] => rfl
    | a :: rest =>
      rw [hx] at hrev
      injection hrev with ha
      subst ha
      exact List.dropWhile_cons_of_neg (by simp [hc])
  rw [hdw, List.reverse_reverse]

theorem trimRight_last_not_ws (x : Str) (h : ¬ trimRight x = []) :
    ∃ c, (trimRight x).getLast? = some c ∧ isWs c = false := by
  unfold trimRight at h ⊢
  match hy : x.reverse.dropWhile isWs with
  | [] =>
    exfalso
    exact h (by rw [hy]; rfl)
  | c :: cs =>
    refine ⟨c, ?_, dropWhile_head_false isWs x.reverse c cs hy⟩
    simp

theorem suffix_getLast_eq (a b : Str) (h : a <:+ b) (hne : ¬ a = []) :
    b.getLast? = a.getLast? := by
  obtain ⟨u, hu⟩ := h
  rw [← hu, List.getLast?_append]
  match ha : a.getLast? with
  | some c => rfl
  | none =>
    exfalso
    exact hne (List.getLast?_eq_none_iff.mp ha)

theorem trimRight_idem (s : Str) : trimRight (trimRight s) = trimRight s := by
  unfold trimRight
  rw [List.reverse_reverse, dropWhile_dropWhile]

theorem trim_idem (s : Str) : trim (trim s) = trim s := by
  unfold trim
  set u := trimRight s with hu
  have hufix : trimRight u = u := trimRight_idem s
  by_cases hv : trimLeft u = []
  · rw [hv]
    rfl
  · have hvsuf : trimLeft u <:+ u := List.dropWhile_suffix isWs
    obtain ⟨c, hc, hcw⟩ : ∃ c, u.getLast? = some c ∧ isWs c = false := by
      have hune : ¬ trimRight s = [] := by
        intro hcon
        apply hv
        rw [hu, hcon]
        rfl
      obtain ⟨c, hc, hcw⟩ := trimRight_last_not_ws s hune
      exact ⟨c, by rw [hu]; exact hc, hcw⟩
    have hvlast : (trimLeft u).getLast? = some c := by
      rw [← suffix_getLast_eq (trimLeft u) u hvsuf hv]
      exact hc
    rw [trimRight_fix_of_last (trimLeft u) c hvlast hcw]
    unfold trimLeft
    rw [dropWhile_dropWhile]

theorem trim_getLast_not_ws (s : Str) (h : ¬ trim s = []) :
    ∃ c, (trim s).getLast? = some c ∧ isWs c = false := by
  unfold trim at *
  have hr : ¬ trimRight s = [] := by
    intro hcon
    rw [hcon] at h
    exact h rfl
  obtain ⟨c, hc, hcw⟩ := trimRight_last_not_ws s hr
  refine ⟨c, ?_, hcw⟩
  rw [suffix_getLast_eq (trimLeft (trimRight s)) (trimRight s)
    (List.dropWhile_suffix isWs) h] at hc
  exact hc

/-! ## sepFor and collapse facts -/

theorem sepFor_cases (x : Str) :
    sepFor x = List.replicate 0 '\n' ∨ sepFor x = List.replicate 1 '\n' ∨
      sepFor x = List.replicate 2 '\n' := by
  unfold sepFor
  split_ifs <;> simp [List.replicate]

theorem collapseAux_replicate (m : Nat) :
    ∀ n, collapseAux n (List.replicate m '\n') = List.replicate (min (n + m) 2) '\n' := by
  induction m with
  | zero => intro n; simp [collapseAux]
  | succ m0 ih =>
    intro n
    rw [List.replicate_succ]
    simp only [collapseAux, if_pos rfl]
    rw [ih (n + 1)]
    have harith : n + 1 + m0 = n + (m0 + 1) := by omega
    rw [harith]
    simp

theorem collapseAux_append_replicate (d : Str) :
    ∀ n m, ∃ y a b,
      collapseAux n (d ++ List.replicate m '\n') = y ++ List.replicate a '\n' ∧
      collapseAux n d = y ++ List.replicate b '\n' := by
  induction d with
  | nil =>
    intro n m
    refine ⟨[], min (n + m) 2, min n 2, ?_, ?_⟩
    · rw [List.nil_append, collapseAux_replicate m n]
      simp
    · simp [collapseAux]
  | cons c cs ih =>
    intro n m
    by_cases hc : c = '\n'
    · subst hc
      obtain ⟨y, a, b, h1, h2⟩ := ih (n + 1) m
      exact ⟨y, a, b, by simpa [collapseAux] using h1, by simpa [collapseAux] using h2⟩
    · obtain ⟨y, a, b, h1, h2⟩ := ih 0 m
      refine ⟨List.replicate (min n 2) '\n' ++ c :: y, a, b, ?_, ?_⟩
      · simp only [List.cons_append, collapseAux, if_neg hc, List.append_eq, h1,
          List.append_assoc]
      · simp only [collapseAux, if_neg hc, List.append_eq, h2, List.append_assoc]
        simp

theorem trimRight_append_replicate_nl (y : Str) (a : Nat) :
    trimRight (y ++ List.replicate a '\n') = trimRight y := by
  unfold trimRight
  rw [List.reverse_append, List.reverse_replicate]
  rw [List.dropWhile_append_of_pos]
  intro x hx
  rw [List.eq_of_mem_replicate hx]
  decide

theorem trim_collapse_append_replicate (d : Str) (m : Nat) :
    trim (collapseNl (d ++ List.replicate m '\n')) = trim (collapseNl d) := by
  obtain ⟨y, a, b, h1, h2⟩ := collapseAux_append_replicate d 0 m
  unfold collapseNl trim
  rw [h1, h2, trimRight_append_replicate_nl, trimRight_append_replicate_nl]

/-! ## trimNlBack facts -/

theorem getD_eq_of_getElem? (doc : Str) (i : Nat) (c : Char)
    (h : doc[i]? = some c) : doc.getD i ' ' = c := by
  simp [List.getD_eq_getElem?_getD, h]

theorem getElem?_of_getD_nl (doc : Str) (i : Nat)
    (h : doc.getD i ' ' = '\n') : doc[i]? = some '\n' := by
  match hx : doc[i]? with
  | none =>
    exfalso
    rw [List.getD_eq_getElem?_getD, hx] at h
    cases h
  | some c =>
    rw [List.getD_eq_getElem?_getD, hx] at h
    simp at h
    rw [h]

theorem trimNlBack_add_replicate (doc : Str) (start c : Nat) (ch : Char)
    (hstart : start < c) (hch : doc[c - 1]? = some ch) (hne : ¬ ch = '\n') :
    ∀ m, (∀ i, c ≤ i → i < c + m → doc[i]? = some '\n') →
      trimNlBack doc start (c + m) = c := by
  intro m
  induction m with
  | zero =>
    intro _
    obtain ⟨c0, rfl⟩ : ∃ c0, c = c0 + 1 := ⟨c - 1, by omega⟩
    show trimNlBack doc start (c0 + 1) = c0 + 1
    simp only [trimNlBack]
    rw [if_neg]
    intro hcon
    rw [Bool.and_eq_true] at hcon
    have := getElem?_of_getD_nl doc c0 (by simpa using hcon.2)
    rw [show c0 + 1 - 1 = c0 from rfl] at hch
    rw [this] at hch
    injection hch with hch2
    exact hne hch2.symm
  | succ m0 ih =>
    intro hnl
    have hstep : c + (m0 + 1) = (c + m0) + 1 := rfl
    rw [hstep]
    simp only [trimNlBack]
    rw [if_pos]
    · exact ih (fun i h1 h2 => hnl i h1 (by omega))
    · rw [Bool.and_eq_true]
      constructor
      · simp
        omega
      · have hsome := hnl (c + m0) (by omega) (by omega)
        simp [List.getD_eq_getElem?_getD, hsome]

theorem trimNlBack_spec (doc : Str) (start : Nat) (hc : Char)
    (hhc : doc[start]? = some hc) (hne : ¬ hc = '\n') :
    ∀ e0, start < e0 →
      start < trimNlBack doc start e0 ∧ trimNlBack doc start e0 ≤ e0 ∧
      ∀ i, trimNlBack doc start e0 ≤ i → i < e0 → doc[i]? = some '\n' := by
  intro e0
  induction e0 with
  | zero => intro h; omega
  | succ e ih =>
    intro h
    by_cases hcond : (start < e + 1 && doc.getD e ' ' == '\n') = true
    · have hval : trimNlBack doc start (e + 1) = trimNlBack doc start e := by
        simp only [trimNlBack]
        rw [if_pos hcond]
      rw [Bool.and_eq_true] at hcond
      have he : doc[e]? = some '\n' := getElem?_of_getD_nl doc e (by simpa using hcond.2)
      have hse : start < e := by
        rcases Nat.lt_or_ge start e with h1 | h1
        · exact h1
        · exfalso
          have : e = start := by omega
          subst this
          rw [he] at hhc
          injection hhc with hhc2
          exact hne hhc2.symm
      obtain ⟨ih1, ih2, ih3⟩ := ih hse
      rw [hval]
      refine ⟨ih1, by omega, ?_⟩
      intro i hi1 hi2
      by_cases hie : i < e
      · exact ih3 i hi1 hie
      · have : i = e := by omega
        subst this
        exact he
    · have hval : trimNlBack doc start (e + 1) = e + 1 := by
        simp only [trimNlBack]
        rw [if_neg hcond]
      rw [hval]
      exact ⟨h, Nat.le_refl _, fun i hi1 hi2 => absurd hi2 (by omega)⟩

theorem drop_eq_replicate_append (doc : Str) :
    ∀ (k e : Nat), (∀ i, e ≤ i → i < e + k → doc[i]? = some '\n') →
      doc.drop e = List.replicate k '\n' ++ doc.drop (e + k) := by
  intro k
  induction k with
  | zero => intro e _; simp
  | succ k0 ih =>
    intro e h
    have he : doc[e]? = some '\n' := h e (Nat.le_refl e) (by omega)
    obtain ⟨hlt, hval⟩ := List.getElem?_eq_some_iff.mp he
    rw [List.drop_eq_getElem_cons hlt, hval]
    rw [ih (e + 1) (fun i h1 h2 => h i (by omega) (by omega))]
    have harith : e + 1 + k0 = e + (k0 + 1) := by omega
    rw [harith, List.replicate_succ]
    simp

/-! ## Section recovery: the shape of the text after a section span -/

/-- The shape of the document suffix that follows a located section: a run of
newlines followed either by nothing or by the start of another `###` heading
(the next-heading pattern without its leading newline). -/
def SufOk (suf : Str) : Prop :=
  (∃ j, suf = List.replicate j '\n') ∨
  (∃ j R, 1 ≤ j ∧ suf = List.replicate j '\n' ++ R ∧
    isNextHeadingAt ('\n' :: R) = true)

theorem heading_sharp012 (h : Str) (htake : h.take 3 = ['#', '#', '#']) :
    h[0]? = some '#' ∧ h[1]? = some '#' ∧ h[2]? = some '#' := by
  refine ⟨?_, ?_, ?_⟩
  · rw [← List.getElem?_take_of_lt (show 0 < 3 by omega), htake]; rfl
  · rw [← List.getElem?_take_of_lt (show 1 < 3 by omega), htake]; rfl
  · rw [← List.getElem?_take_of_lt (show 2 < 3 by omega), htake]; rfl

theorem heading_sharp_drop (h : Str) (k : Nat) (h3 : 3 ≤ k)
    (hk : h[k]? = some '#') : '#' ∈ h.drop 3 := by
  apply List.getElem?_mem (n := k - 3)
  rw [List.getElem?_drop]
  rw [show 3 + (k - 3) = k from by omega]
  exact hk

theorem no_occurrence_before (pre t suf h : Str)
    (hpre : ∀ j, ¬ h <+: pre.drop j)
    (htake : h.take 3 = ['#', '#', '#'])
    (hsharp : '#' ∉ h.drop 3)
    (hlen : 4 ≤ h.length)
    (hht : h <+: t)
    (j : Nat) (hj : j < pre.length) :
    ¬ h <+: (pre ++ (t ++ suf)).drop j := by
  intro hocc
  by_cases hcase : j + h.length ≤ pre.length
  · apply hpre j
    have hdrop : (pre ++ (t ++ suf)).drop j = pre.drop j ++ (t ++ suf) :=
      List.drop_append_of_le_length (Nat.le_of_lt hj)
    rw [hdrop] at hocc
    exact pref_of_pref_append h (pre.drop j) (t ++ suf) hocc
      (by simpa using by omega)
  · have htlen : h.length ≤ t.length := hht.length_le
    have hk1 : 1 ≤ pre.length - j := by omega
    have hk2 : pre.length - j < h.length := by omega
    have helem : ∀ i, i < h.length → (pre ++ (t ++ suf))[j + i]? = h[i]? := by
      intro i hi
      have := pref_getElem? h _ hocc i hi
      rw [List.getElem?_drop] at this
      exact this
    have hrt : ∀ i, pre.length - j ≤ i → i < h.length → h[i]? = h[i - (pre.length - j)]? := by
      intro i hik hih
      have h1 : (pre ++ (t ++ suf))[j + i]? = (t ++ suf)[j + i - pre.length]? :=
        List.getElem?_append_right (by omega)
      have h2 : (t ++ suf)[j + i - pre.length]? = t[j + i - pre.length]? :=
        List.getElem?_append_left (by omega)
      have h3 : t[j + i - pre.length]? = h[j + i - pre.length]? :=
        pref_getElem? h t hht _ (by omega)
      have h4 : j + i - pre.length = i - (pre.length - j) := by omega
      rw [← helem i hih, h1, h2, h3, h4]
    obtain ⟨h0, h1, h2⟩ := heading_sharp012 h htake
    set k := pre.length - j with hkdef
    rcases Nat.lt_or_ge k 3 with hk3 | hk3
    · interval_cases k
      · have ha := hrt 1 (by omega) (by omega)
        have hb := hrt 2 (by omega) (by omega)
        have hc := hrt 3 (by omega) (by omega)
        simp only [show (1 : Nat) - 1 = 0 from rfl, show (2 : Nat) - 1 = 1 from rfl,
          show (3 : Nat) - 1 = 2 from rfl] at ha hb hc
        apply hsharp
        apply heading_sharp_drop h 3 (by omega)
        rw [hc, hb, ha, h0]
      · have hc := hrt 3 (by omega) (by omega)
        simp only [show (3 : Nat) - 2 = 1 from rfl] at hc
        apply hsharp
        apply heading_sharp_drop h 3 (by omega)
        rw [hc, h1]
    · have hc := hrt k (Nat.le_refl k) hk2
      rw [Nat.sub_self, h0] at hc
      exact hsharp (heading_sharp_drop h k hk3 hc)

/-! ## Next-heading scanning over the spliced document -/

theorem getElem?_idx (l : Str) (a b : Nat) (h : a = b) : l[a]? = l[b]? := by
  rw [h]

theorem no_match_lt (t : Str) (hl : Nat) (hle : hl ≤ t.length)
    (hnh : ∀ q, isNextHeadingAt ((t ++ ['\n']).drop q) = false)
    (Q : Str) (i : Nat) (hi : i + 3 < t.length - hl) :
    isNextHeadingAt ((t.drop hl ++ Q).drop i) = false := by
  by_contra hcon
  rw [Bool.not_eq_false] at hcon
  obtain ⟨m0, m1, m2, m3, c4, m4, hws⟩ := (isNextHeadingAt_iff _).mp hcon
  rw [List.getElem?_drop] at m0 m1 m2 m3 m4
  have hYq : ∀ q, q ≤ 3 → (t ++ ['\n'])[hl + i + q]? = (t.drop hl ++ Q)[i + q]? := by
    intro q hq
    rw [List.getElem?_append_left (show hl + i + q < t.length by omega),
      List.getElem?_append_left (show i + q < (t.drop hl).length by
        simp
        omega),
      List.getElem?_drop]
    exact getElem?_idx t _ _ (by omega)
  have hY4 : ∃ c, (t ++ ['\n'])[hl + i + 4]? = some c ∧ isWs c = true := by
    by_cases hcase : i + 4 < t.length - hl
    · refine ⟨c4, ?_, hws⟩
      rw [List.getElem?_append_left (show hl + i + 4 < t.length by omega)]
      rw [List.getElem?_append_left (show i + 4 < (t.drop hl).length by
          simp
          omega),
        List.getElem?_drop] at m4
      rw [getElem?_idx t _ _ (show hl + i + 4 = hl + (i + 4) by omega)]
      exact m4
    · refine ⟨'\n', ?_, by decide⟩
      rw [getElem?_idx (t ++ ['\n']) _ _ (show hl + i + 4 = t.length + 0 by omega),
        List.getElem?_append_right (Nat.le_add_right _ 0)]
      simp
  apply absurd (hnh (hl + i))
  rw [Bool.not_eq_false]
  apply (isNextHeadingAt_iff _).mpr
  refine ⟨?_, ?_, ?_, ?_, ?_⟩
  · rw [List.getElem?_drop, getElem?_idx _ _ _ (show hl + i + 0 = hl + i + 0 from rfl),
      hYq 0 (by omega)]
    exact m0
  · rw [List.getElem?_drop, hYq 1 (by omega)]
    exact m1
  · rw [List.getElem?_drop, hYq 2 (by omega)]
    exact m2
  · rw [List.getElem?_drop, hYq 3 (by omega)]
    exact m3
  · rw [List.getElem?_drop]
    exact hY4

theorem nextHeading_case_none (t : Str) (hl : Nat) (hle : hl ≤ t.length)
    (hnh : nextHeadingIdx (t ++ ['\n']) = none) (j : Nat) :
    nextHeadingIdx (t.drop hl ++ List.replicate j '\n') = none := by
  apply (nextHeadingIdx_eq_none_iff _).mpr
  intro i
  have hnh2 := (nextHeadingIdx_eq_none_iff _).mp hnh
  by_cases hi : i + 3 < t.length - hl
  · exact no_match_lt t hl hle hnh2 _ i hi
  · by_contra hcon
    rw [Bool.not_eq_false] at hcon
    obtain ⟨m0, m1, m2, m3, c4, m4, hws⟩ := (isNextHeadingAt_iff _).mp hcon
    rw [List.getElem?_drop] at m3
    have h3 : ¬ (t.drop hl ++ List.replicate j '\n')[i + 3]? = some '#' := by
      rw [List.getElem?_append_right (show (t.drop hl).length ≤ i + 3 by
          simp
          omega)]
      rw [List.getElem?_replicate]
      split_ifs
      · simp
      · simp
    exact h3 m3

theorem nextHeading_case_R (t : Str) (hl : Nat) (hle : hl ≤ t.length)
    (hnh : nextHeadingIdx (t ++ ['\n']) = none)
    (j : Nat) (hj : 1 ≤ j) (R : Str) (hR : isNextHeadingAt ('\n' :: R) = true) :
    nextHeadingIdx (t.drop hl ++ (List.replicate j '\n' ++ R))
      = some (t.length - hl + j - 1) := by
  apply (nextHeadingIdx_eq_some_iff _ _).mpr
  constructor
  · have hdrop : (t.drop hl ++ (List.replicate j '\n' ++ R)).drop (t.length - hl + j - 1)
        = '\n' :: R := by
      have h1 : t.length - hl + j - 1 = (t.drop hl).length + (j - 1) := by
        simp
        omega
      rw [h1, List.drop_append]
      rw [List.drop_append_of_le_length (show j - 1 ≤ (List.replicate j '\n').length by
          simp)]
      rw [List.drop_replicate]
      rw [show j - (j - 1) = 1 from by omega]
      simp [List.replicate]
    rw [hdrop]
    exact hR
  · intro i hi
    have hnh2 := (nextHeadingIdx_eq_none_iff _).mp hnh
    by_cases hcase : i + 3 < t.length - hl
    · exact no_match_lt t hl hle hnh2 _ i hcase
    · by_contra hcon
      rw [Bool.not_eq_false] at hcon
      obtain ⟨m0, m1, m2, m3, c4, m4, hws⟩ := (isNextHeadingAt_iff _).mp hcon
      rw [List.getElem?_drop] at m1 m2 m3
      obtain ⟨q, hq1, hq3, hqa, hqb⟩ :
          ∃ q, 1 ≤ q ∧ q ≤ 3 ∧ t.length - hl ≤ i + q ∧ i + q < t.length - hl + j := by
        by_cases h1 : t.length - hl ≤ i + 1
        · exact ⟨1, by omega, by omega, by omega, by omega⟩
        · exact ⟨t.length - hl - i, by omega, by omega, by omega, by omega⟩
      have hval : (t.drop hl ++ (List.replicate j '\n' ++ R))[i + q]? = some '\n' := by
        rw [List.getElem?_append_right (show (t.drop hl).length ≤ i + q by
            simp
            omega)]
        rw [List.getElem?_append_left (show i + q - (t.drop hl).length
            < (List.replicate j '\n').length by
          simp
          omega)]
        rw [List.getElem?_replicate, if_pos (show i + q - (t.drop hl).length < j by
          simp
          omega)]
      have hcontr : (some '#' : Option Char) = some '\n' := by
        rcases (show q = 1 ∨ q = 2 ∨ q = 3 from by omega) with rfl | rfl | rfl
        · exact m1.symm.trans hval
        · exact m2.symm.trans hval
        · exact m3.symm.trans hval
      simp at hcontr

theorem strSlice_middle (pre t X : Str) :
    strSlice (pre ++ (t ++ X)) pre.length (pre.length + t.length) = t := by
  unfold strSlice
  rw [List.take_append, List.take_left, List.drop_left]

/-- Recovery of a freshly written entry: in a document of the form
`pre ++ t ++ suf` where the heading `h` does not occur in `pre`, `t` is the
trimmed entry starting with `h` and containing no next-heading pattern, and
`suf` has the post-section shape (`SufOk`), `findSectionByHeading` locates
exactly the span of `t`. -/
theorem findSection_concat (pre t suf h : Str)
    (hpre : ∀ j, ¬ h <+: pre.drop j)
    (htake : h.take 3 = ['#', '#', '#'])
    (hsharp : '#' ∉ h.drop 3)
    (hlen : 4 ≤ h.length)
    (hht : h <+: t)
    (hlast : ∃ c, t.getLast? = some c ∧ isWs c = false)
    (hnh : nextHeadingIdx (t ++ ['\n']) = none)
    (hsuf : SufOk suf) :
    findSectionByHeading (pre ++ (t ++ suf)) h
      = some ⟨pre.length, pre.length + t.length, t⟩ := by
  have htlen : h.length ≤ t.length := hht.length_le
  have htpos : 1 ≤ t.length := by omega
  obtain ⟨cl, hcl, hclw⟩ := hlast
  have hclne : ¬ cl = '\n' := by
    intro hcon
    subst hcon
    exact absurd hclw (by decide)
  have hidx : indexOfSub (pre ++ (t ++ suf)) h = some pre.length := by
    apply (indexOfSub_eq_some_iff h _ pre.length).mpr
    constructor
    · rw [List.drop_left]
      exact hht.trans (t.prefix_append suf)
    · intro j hj
      exact no_occurrence_before pre t suf h hpre htake hsharp hlen hht j hj
  have hAH : (pre ++ (t ++ suf)).drop (pre.length + h.length)
      = t.drop h.length ++ suf := by
    rw [List.drop_append]
    exact List.drop_append_of_le_length htlen
  have hch : (pre ++ (t ++ suf))[pre.length + t.length - 1]? = some cl := by
    rw [List.getElem?_append_right (show pre.length ≤ pre.length + t.length - 1 by omega)]
    rw [List.getElem?_append_left (show pre.length + t.length - 1 - pre.length < t.length
      by omega)]
    rw [getElem?_idx t _ _ (show pre.length + t.length - 1 - pre.length = t.length - 1
      by omega)]
    rw [← List.getLast?_eq_getElem?]
    exact hcl
  rcases hsuf with ⟨j, rfl⟩ | ⟨j, R, hj1, rfl, hR⟩
  · have hnx : nextHeadingIdx ((pre ++ (t ++ List.replicate j '\n')).drop
        (pre.length + h.length)) = none := by
      rw [hAH]
      exact nextHeading_case_none t h.length htlen hnh j
    have hDlen : (pre ++ (t ++ List.replicate j '\n')).length
        = pre.length + t.length + j := by
      simp
      omega
    have hsufval : ∀ i, pre.length + t.length ≤ i → i < pre.length + t.length + j →
        (pre ++ (t ++ List.replicate j '\n'))[i]? = some '\n' := by
      intro i hi1 hi2
      rw [List.getElem?_append_right (show pre.length ≤ i by omega)]
      rw [List.getElem?_append_right (show t.length ≤ i - pre.length by omega)]
      rw [List.getElem?_replicate, if_pos (by omega)]
    have htnb : trimNlBack (pre ++ (t ++ List.replicate j '\n')) pre.length
        (pre.length + t.length + j) = pre.length + t.length := by
      exact trimNlBack_add_replicate _ pre.length (pre.length + t.length) cl
        (by omega) hch hclne j (fun i h1 h2 => hsufval i h1 h2)
    simp only [findSectionByHeading, hidx, hnx, hDlen, htnb, strSlice_middle]
  · have hnx : nextHeadingIdx ((pre ++ (t ++ (List.replicate j '\n' ++ R))).drop
        (pre.length + h.length)) = some (t.length - h.length + j - 1) := by
      rw [hAH]
      exact nextHeading_case_R t h.length htlen hnh j hj1 R hR
    have hraw : pre.length + h.length + (t.length - h.length + j - 1)
        = pre.length + t.length + (j - 1) := by omega
    have hsufval : ∀ i, pre.length + t.length ≤ i →
        i < pre.length + t.length + (j - 1) →
        (pre ++ (t ++ (List.replicate j '\n' ++ R)))[i]? = some '\n' := by
      intro i hi1 hi2
      rw [List.getElem?_append_right (show pre.length ≤ i by omega)]
      rw [List.getElem?_append_right (show t.length ≤ i - pre.length by omega)]
      rw [List.getElem?_append_left (show i - pre.length - t.length
          < (List.replicate j '\n').length by
        simp
        omega)]
      rw [List.getElem?_replicate, if_pos (by omega)]
    have htnb : trimNlBack (pre ++ (t ++ (List.replicate j '\n' ++ R))) pre.length
        (pre.length + t.length + (j - 1)) = pre.length + t.length := by
      exact trimNlBack_add_replicate _ pre.length (pre.length + t.length) cl
        (by omega) hch hclne (j - 1) (fun i h1 h2 => hsufval i h1 h2)
    simp only [findSectionByHeading, hidx, hnx, hraw, htnb, strSlice_middle]

theorem strSlice_zero (doc : Str) (n : Nat) : strSlice doc 0 n = doc.take n := by
  simp [strSlice]

/-- What `findSectionByHeading doc h = some sec` reveals about the document:
no occurrence of `h` anywhere in the prefix `doc.take sec.start`, and the
text after the located span has the post-section shape `SufOk`. -/
theorem findSection_inv (doc h : Str) (sec : SectionSpan)
    (hlen : 4 ≤ h.length)
    (hh0 : h[0]? = some '#')
    (hfind : findSectionByHeading doc h = some sec) :
    (∀ j, ¬ h <+: (doc.take sec.start).drop j) ∧ SufOk (doc.drop sec.endIdx) := by
  unfold findSectionByHeading at hfind
  match hidx : indexOfSub doc h with
  | none =>
    rw [hidx] at hfind
    cases hfind
  | some s =>
    rw [hidx] at hfind
    dsimp only at hfind
    obtain ⟨hocc, hbefore⟩ := (indexOfSub_eq_some_iff h doc s).mp hidx
    have hslen : s + h.length ≤ doc.length := by
      have := hocc.length_le
      simp at this
      omega
    have hdocS : doc[s]? = some '#' := by
      have := pref_getElem? h _ hocc 0 (by omega)
      rw [List.getElem?_drop] at this
      rw [show s + 0 = s from rfl] at this
      rw [this, hh0]
    have hpretake : ∀ st, st ≤ s → ∀ j, ¬ h <+: (doc.take st).drop j := by
      intro st hst j hcon
      by_cases hj : j < st
      · rw [List.drop_take] at hcon
        exact hbefore j (by omega) (hcon.trans (takeIsPre _ _))
      · rw [List.drop_eq_nil_iff.mpr (by simp; omega)] at hcon
        have : h = [] := List.prefix_nil.mp hcon
        rw [this] at hlen
        simp at hlen
    match hnx : nextHeadingIdx (doc.drop (s + h.length)) with
    | none =>
      rw [hnx] at hfind
      have hraw : s < doc.length := by omega
      obtain ⟨he1, he2, he3⟩ := trimNlBack_spec doc s '#' hdocS (by decide)
        doc.length (by omega)
      injection hfind with hfind
      subst hfind
      refine ⟨hpretake s (Nat.le_refl s), ?_⟩
      left
      refine ⟨doc.length - (trimNlBack doc s doc.length), ?_⟩
      rw [drop_eq_replicate_append doc (doc.length - trimNlBack doc s doc.length)
        (trimNlBack doc s doc.length)
        (fun i h1 h2 => he3 i h1 (by omega))]
      rw [show trimNlBack doc s doc.length +
        (doc.length - trimNlBack doc s doc.length) = doc.length from by omega]
      simp
    | some m =>
      rw [hnx] at hfind
      obtain ⟨hmatch, _⟩ := (nextHeadingIdx_eq_some_iff _ m).mp hnx
      rw [List.drop_drop] at hmatch
      obtain ⟨n0, n1, n2, n3, c4, n4, hws⟩ := (isNextHeadingAt_iff _).mp hmatch
      rw [List.getElem?_drop] at n0 n1 n2 n3 n4
      have hrawlt : s + h.length + m < doc.length := by
        rw [show s + h.length + m + 0 = s + h.length + m from rfl] at n0
        exact (List.getElem?_eq_some_iff.mp n0).1
      obtain ⟨he1, he2, he3⟩ := trimNlBack_spec doc s '#' hdocS (by decide)
        (s + h.length + m) (by omega)
      injection hfind with hfind
      subst hfind
      refine ⟨hpretake s (Nat.le_refl s), ?_⟩
      right
      refine ⟨s + h.length + m + 1 - trimNlBack doc s (s + h.length + m),
        doc.drop (s + h.length + m + 1), by omega, ?_, ?_⟩
      · rw [drop_eq_replicate_append doc
          (s + h.length + m + 1 - trimNlBack doc s (s + h.length + m))
          (trimNlBack doc s (s + h.length + m))
          ?hall]
        case hall =>
          intro i h1 h2
          by_cases hi : i < s + h.length + m
          · exact he3 i h1 hi
          · have hieq : i = s + h.length + m := by omega
            subst hieq
            simpa using n0
        rw [show trimNlBack doc s (s + h.length + m) +
          (s + h.length + m + 1 - trimNlBack doc s (s + h.length + m))
          = s + h.length + m + 1 from by omega]
      · apply (isNextHeadingAt_iff _).mpr
        refine ⟨by simp, ?_, ?_, ?_, c4, ?_, hws⟩
        · rw [show (1 : Nat) = 0 + 1 from rfl, List.getElem?_cons_succ,
            List.getElem?_drop]
          rw [getElem?_idx doc _ _ (show s + h.length + m + 1 + 0
            = s + h.length + m + 1 from by omega)]
          exact n1
        · rw [show (2 : Nat) = 1 + 1 from rfl, List.getElem?_cons_succ,
            List.getElem?_drop]
          rw [getElem?_idx doc _ _ (show s + h.length + m + 1 + 1
            = s + h.length + m + 2 from by omega)]
          exact n2
        · rw [show (3 : Nat) = 2 + 1 from rfl, List.getElem?_cons_succ,
            List.getElem?_drop]
          rw [getElem?_idx doc _ _ (show s + h.length + m + 1 + 2
            = s + h.length + m + 3 from by omega)]
          exact n3
        · rw [show (4 : Nat) = 3 + 1 from rfl, List.getElem?_cons_succ,
            List.getElem?_drop]
          rw [getElem?_idx doc _ _ (show s + h.length + m + 1 + 3
            = s + h.length + m + 4 from by omega)]
          exact n4

/-! ## registerEntry computation lemmas -/

theorem registerEntry_eq_created (existing : Option Str) (e h : Str)
    (hV1 : extractHeading e = some h)
    (hfind : findSectionByHeading (existing.getD []) h = none) :
    registerEntry existing e = ⟨.created,
      existing.getD [] ++ sepFor (existing.getD []) ++ trim e ++ ['\n'],
      true, true⟩ := by
  simp only [registerEntry, hV1, hfind]

theorem registerEntry_eq_updated (existing : Option Str) (e h : Str)
    (sec : SectionSpan) (hV1 : extractHeading e = some h)
    (hfind : findSectionByHeading (existing.getD []) h = some sec)
    (hneq : ¬ trim sec.content = trim e) :
    registerEntry existing e = ⟨.updated,
      strSlice (existing.getD []) 0 sec.start ++ trim e
        ++ (existing.getD []).drop sec.endIdx, true, true⟩ := by
  simp only [registerEntry, hV1, hfind, if_neg hneq]

theorem registerEntry_eq_unchanged (existing : Option Str) (e h : Str)
    (sec : SectionSpan) (hV1 : extractHeading e = some h)
    (hfind : findSectionByHeading (existing.getD []) h = some sec)
    (heq : trim sec.content = trim e) :
    registerEntry existing e = ⟨.unchanged, existing.getD [], false, false⟩ := by
  simp only [registerEntry, hV1, hfind, if_pos heq]

theorem findSection_eq_none_iff (doc h : Str) :
    findSectionByHeading doc h = none ↔ indexOfSub doc h = none := by
  unfold findSectionByHeading
  match hidx : indexOfSub doc h with
  | none => simp
  | some s => simp

theorem hpre_created (ex h : Str) (hnone : indexOfSub ex h = none)
    (hnl : '\n' ∉ h) (hne : h ≠ []) :
    ∀ j, ¬ h <+: (ex ++ sepFor ex).drop j := by
  have hh1 : 1 ≤ h.length := List.length_pos.mpr hne
  obtain ⟨k, hk⟩ : ∃ k, sepFor ex = List.replicate k '\n' := by
    rcases sepFor_cases ex with h | h | h
    exacts [⟨0, h⟩, ⟨1, h⟩, ⟨2, h⟩]
  intro j hcon
  rw [hk] at hcon
  have hlenle : j + h.length ≤ ex.length + k := by
    have := hcon.length_le
    simp at this
    omega
  by_cases hcase : j + h.length ≤ ex.length
  · have hjle : j ≤ ex.length := by omega
    rw [List.drop_append_of_le_length hjle] at hcon
    exact (indexOfSub_eq_none_iff h ex).mp hnone j
      (pref_of_pref_append h _ _ hcon (by simp; omega))
  · have hhp : h[(max j ex.length) - j]? = some '\n' := by
      have hprefElem := pref_getElem? h _ hcon ((max j ex.length) - j)
        (by rcases Nat.le_total j ex.length with h1 | h1 <;> simp [Nat.max_def] <;>
          split_ifs <;> omega)
      rw [List.getElem?_drop] at hprefElem
      rw [getElem?_idx _ _ _
        (show j + ((max j ex.length) - j) = max j ex.length by omega)] at hprefElem
      rw [List.getElem?_append_right (Nat.le_max_right j ex.length)] at hprefElem
      rw [List.getElem?_replicate] at hprefElem
      rw [if_pos (by omega)] at hprefElem
      exact hprefElem.symm
    exact hnl (List.getElem?_mem hhp)

/-! ## C1: register is idempotent -/

/-- C1: for a valid entry (a heading `h` of the standard `###` shape that is
the first line of the trimmed entry content, no further next-heading pattern
inside the entry) and a target file that does not already hold an up-to-date
copy of the entry, calling `registerEntry` twice with the same arguments
yields `created` (or `updated`) on the first call and `unchanged` on the
second, the file content after the second call equals the content after the
first call byte for byte, and the second call performs no write.
(`targetPath` and `toolName` only affect path resolution and the registry,
not the file mutation, so the pure core takes the file content directly.) -/
theorem register_twice_idempotent (existing : Option Str) (e h : Str)
    (hV1 : extractHeading e = some h)
    (hV2a : h.take 3 = ['#', '#', '#'])
    (hV2b : '#' ∉ h.drop 3)
    (hV2c : '\n' ∉ h)
    (hV2d : 4 ≤ h.length)
    (hV3 : h <+: trim e)
    (hV4 : nextHeadingIdx (trim e ++ ['\n']) = none)
    (hfresh : ∀ sec, findSectionByHeading (existing.getD []) h = some sec →
      ¬ trim sec.content = trim e) :
    ((registerEntry existing e).action = .created ∨
      (registerEntry existing e).action = .updated) ∧
    (registerEntry (some (registerEntry existing e).file) e).action = .unchanged ∧
    (registerEntry (some (registerEntry existing e).file) e).file
      = (registerEntry existing e).file ∧
    (registerEntry (some (registerEntry existing e).file) e).wrote = false := by
  have hh1 : h ≠ [] := by
    intro hcon
    rw [hcon] at hV2d
    simp at hV2d
  have htne : trim e ≠ [] := by
    intro hcon
    rw [hcon] at hV3
    exact hh1 (List.prefix_nil.mp hV3)
  have hlast := trim_getLast_not_ws e htne
  have htrimidem : trim (trim e) = trim e := trim_idem e
  match hfind : findSectionByHeading (existing.getD []) h with
  | none =>
    have h1 := registerEntry_eq_created existing e h hV1 hfind
    have hassoc : existing.getD [] ++ sepFor (existing.getD []) ++ trim e ++ ['\n']
        = (existing.getD [] ++ sepFor (existing.getD []))
          ++ (trim e ++ ['\n']) := by
      simp [List.append_assoc]
    have hfind2 : findSectionByHeading
        ((existing.getD [] ++ sepFor (existing.getD [])) ++ (trim e ++ ['\n'])) h
        = some ⟨(existing.getD [] ++ sepFor (existing.getD [])).length,
            (existing.getD [] ++ sepFor (existing.getD [])).length
              + (trim e).length, trim e⟩ :=
      findSection_concat _ _ _ h
        (hpre_created (existing.getD []) h
          ((findSection_eq_none_iff _ h).mp hfind) hV2c hh1)
        hV2a hV2b hV2d hV3 hlast hV4
        (Or.inl ⟨1, by simp [List.replicate]⟩)
    have h2 := registerEntry_eq_unchanged
      (some ((existing.getD [] ++ sepFor (existing.getD [])) ++ (trim e ++ ['\n'])))
      e h _ hV1 (by simpa using hfind2) htrimidem
    rw [h1]
    simp only [hassoc]
    rw [h2]
    simp
  | some sec =>
    have hneq := hfresh sec hfind
    have h1 := registerEntry_eq_updated existing e h sec hV1 hfind hneq
    obtain ⟨hpretake, hsufok⟩ := findSection_inv (existing.getD []) h sec hV2d
      (heading_sharp012 h hV2a).1 hfind
    have hassoc : strSlice (existing.getD []) 0 sec.start ++ trim e
          ++ (existing.getD []).drop sec.endIdx
        = (existing.getD []).take sec.start
          ++ (trim e ++ (existing.getD []).drop sec.endIdx) := by
      rw [strSlice_zero]
      simp [List.append_assoc]
    have hfind2 : findSectionByHeading
        ((existing.getD []).take sec.start
          ++ (trim e ++ (existing.getD []).drop sec.endIdx)) h
        = some ⟨((existing.getD []).take sec.start).length,
            ((existing.getD []).take sec.start).length + (trim e).length,
            trim e⟩ :=
      findSection_concat _ _ _ h hpretake hV2a hV2b hV2d hV3 hlast hV4 hsufok
    have h2 := registerEntry_eq_unchanged
      (some ((existing.getD []).take sec.start
        ++ (trim e ++ (existing.getD []).drop sec.endIdx)))
      e h _ hV1 (by simpa using hfind2) htrimidem
    rw [h1]
    simp only [hassoc]
    rw [h2]
    simp

/-- Witness for C1: registering the `fetch` entry into a file holding
unrelated notes, twice in a row. -/
theorem register_twice_idempotent_witness :
    ((registerEntry (some ("Some notes\n".toList))
        ("### Fetch Tools\n\nFetches URLs.".toList)).action = .created ∨
      (registerEntry (some ("Some notes\n".toList))
        ("### Fetch Tools\n\nFetches URLs.".toList)).action = .updated) ∧
    (registerEntry (some (registerEntry (some ("Some notes\n".toList))
        ("### Fetch Tools\n\nFetches URLs.".toList)).file)
      ("### Fetch Tools\n\nFetches URLs.".toList)).action = .unchanged ∧
    (registerEntry (some (registerEntry (some ("Some notes\n".toList))
        ("### Fetch Tools\n\nFetches URLs.".toList)).file)
      ("### Fetch Tools\n\nFetches URLs.".toList)).file
      = (registerEntry (some ("Some notes\n".toList))
        ("### Fetch Tools\n\nFetches URLs.".toList)).file ∧
    (registerEntry (some (registerEntry (some ("Some notes\n".toList))
        ("### Fetch Tools\n\nFetches URLs.".toList)).file)
      ("### Fetch Tools\n\nFetches URLs.".toList)).wrote = false :=
  register_twice_idempotent (some ("Some notes\n".toList))
    ("### Fetch Tools\n\nFetches URLs.".toList) ("### Fetch Tools".toList)
    (by decide) (by decide) (by decide) (by decide) (by decide) (by decide)
    (by decide)
    (fun sec hsec => by
      simp only [Option.getD_some] at hsec
      rw [show findSectionByHeading (("Some notes\n".toList))
        ("### Fetch Tools".toList) = none from by decide] at hsec
      cases hsec)

/-! ## C4: register followed by unregister restores the document -/

theorem unregisterEntry_eq_removed (content h : Str) (sec : SectionSpan)
    (hfind : findSectionByHeading content h = some sec) :
    unregisterEntry (some content) h = (.removed,
      some (trim (collapseNl (content.take sec.start ++ content.drop sec.endIdx))
        ++ ['\n'])) := by
  simp only [unregisterEntry, hfind]

/-- C4: for every document that does not yet contain the addressed section
and every valid headed entry, `registerEntry` (which appends the section)
followed immediately by `unregisterEntry` with the same heading returns
status `removed` and leaves the document equal to the original modulo
whitespace-run collapsing: the final content is exactly `normalizeDoc doc`
(the original with newline runs of length ≥ 3 collapsed to two, outer
whitespace trimmed, one trailing newline) — so all unrelated content is
untouched up to that collapse. -/
theorem register_unregister_roundtrip (doc e h : Str)
    (hV1 : extractHeading e = some h)
    (hV2a : h.take 3 = ['#', '#', '#'])
    (hV2b : '#' ∉ h.drop 3)
    (hV2c : '\n' ∉ h)
    (hV2d : 4 ≤ h.length)
    (hV3 : h <+: trim e)
    (hV4 : nextHeadingIdx (trim e ++ ['\n']) = none)
    (hnone : findSectionByHeading doc h = none) :
    (registerEntry (some doc) e).action = .created ∧
    (unregisterEntry (some (registerEntry (some doc) e).file) h).1 = .removed ∧
    (unregisterEntry (some (registerEntry (some doc) e).file) h).2
      = some (normalizeDoc doc) := by
  have hh1 : h ≠ [] := by
    intro hcon
    rw [hcon] at hV2d
    simp at hV2d
  have htne : trim e ≠ [] := by
    intro hcon
    rw [hcon] at hV3
    exact hh1 (List.prefix_nil.mp hV3)
  have hlast := trim_getLast_not_ws e htne
  have h1 := registerEntry_eq_created (some doc) e h hV1 (by simpa using hnone)
  simp only [Option.getD_some] at h1
  have hfile : (registerEntry (some doc) e).file
      = (doc ++ sepFor doc) ++ (trim e ++ ['\n']) := by
    rw [h1]
    simp [List.append_assoc]
  have hidxnone : indexOfSub doc h = none := (findSection_eq_none_iff doc h).mp hnone
  have hfind2 : findSectionByHeading ((doc ++ sepFor doc) ++ (trim e ++ ['\n'])) h
      = some ⟨(doc ++ sepFor doc).length,
          (doc ++ sepFor doc).length + (trim e).length, trim e⟩ :=
    findSection_concat _ _ _ h (hpre_created doc h hidxnone hV2c hh1)
      hV2a hV2b hV2d hV3 hlast hV4 (Or.inl ⟨1, by simp [List.replicate]⟩)
  have h2 := unregisterEntry_eq_removed _ h _ hfind2
  have htak : ((doc ++ sepFor doc) ++ (trim e ++ ['\n'])).take
      (doc ++ sepFor doc).length = doc ++ sepFor doc := List.take_left _ _
  have hdrp : ((doc ++ sepFor doc) ++ (trim e ++ ['\n'])).drop
      ((doc ++ sepFor doc).length + (trim e).length) = ['\n'] := by
    rw [List.drop_append]
    exact List.drop_left _ _
  obtain ⟨k, hk⟩ : ∃ k, sepFor doc = List.replicate k '\n' := by
    rcases sepFor_cases doc with h | h | h
    exacts [⟨0, h⟩, ⟨1, h⟩, ⟨2, h⟩]
  have hinner : (doc ++ sepFor doc) ++ ['\n'] = doc ++ List.replicate (k + 1) '\n' := by
    rw [hk, List.append_assoc]
    congr 1
    rw [show (['\n'] : Str) = List.replicate 1 '\n' from rfl,
      List.append_replicate_replicate]
  refine ⟨by rw [h1], ?_, ?_⟩
  · rw [hfile, h2]
  · rw [hfile, h2]
    simp only [htak, hdrp]
    rw [hinner, trim_collapse_append_replicate doc (k + 1)]
    rfl

/-- Witness for C4: adding the `fetch` section to a notes file and removing
it again restores the normalised original. -/
theorem register_unregister_roundtrip_witness :
    (registerEntry (some ("Some notes\n".toList))
        ("### Fetch Tools\n\nFetches URLs.".toList)).action = .created ∧
    (unregisterEntry (some (registerEntry (some ("Some notes\n".toList))
        ("### Fetch Tools\n\nFetches URLs.".toList)).file)
      ("### Fetch Tools".toList)).1 = .removed ∧
    (unregisterEntry (some (registerEntry (some ("Some notes\n".toList))
        ("### Fetch Tools\n\nFetches URLs.".toList)).file)
      ("### Fetch Tools".toList)).2
      = some (normalizeDoc ("Some notes\n".toList)) :=
  register_unregister_roundtrip ("Some notes\n".toList)
    ("### Fetch Tools\n\nFetches URLs.".toList) ("### Fetch Tools".toList)
    (by decide) (by decide) (by decide) (by decide) (by decide) (by decide)
    (by decide) (by decide)
